import Mathlib

/-!
# Verification of the triage case manager (`Emergency.cpp`)

Shallow embedding of the emergency-department module of the hospital
management program.  Strings are modelled as `List Char` (mirroring the
character-level behaviour of `std::getline` with a `','` delimiter and of
`std::stoi`), the in-memory case store as a `List EmergencyCase`, and the
persisted case log `data/emergency.txt` as an optional list of lines
(`none` = file missing/unreadable).  Console input consumed through
`cin >> int` is modelled as a list of tokens, each either a successfully
extracted integer or an extraction failure.  A C++ exception that escapes
(an uncaught `std::invalid_argument` from `stoi`) is modelled as
`Except.error ()`.
-/

instance {ε α : Type} [DecidableEq ε] [DecidableEq α] : DecidableEq (Except ε α) := fun a b =>
  match a, b with
  | .error e, .error f =>
      if h : e = f then isTrue (by rw [h]) else isFalse (by simp [h])
  | .ok x, .ok y =>
      if h : x = y then isTrue (by rw [h]) else isFalse (by simp [h])
  | .error _, .ok _ => isFalse (fun h => Except.noConfusion h)
  | .ok _, .error _ => isFalse (fun h => Except.noConfusion h)

/-- C++ `std::string` contents, character by character. -/
abbrev Str := List Char

/-- One line of a text file. -/
abbrev FileLines := List Str

/-- Decimal digit test, as used by `strtol` under `std::stoi`. -/
def isDigitCh (c : Char) : Bool := '0' ≤ c ∧ c ≤ '9'

/-- Numeric value of a run of decimal digit characters. -/
def parseVal (ds : Str) : Int :=
  ds.foldl (fun a c => a * 10 + ((c.toNat : Int) - 48)) 0

/-- `std::stoi`: skip leading whitespace, optional sign, then a non-empty
run of decimal digits (trailing garbage ignored).  `none` models the
`std::invalid_argument` exception thrown when no digits are found. -/
def stoiOpt (cs : Str) : Option Int :=
  let t := cs.dropWhile Char.isWhitespace
  let sgn : Int := if t.head? = some '-' then -1 else 1
  let t2 := if t.head? = some '-' ∨ t.head? = some '+' then t.tail else t
  let ds := t2.takeWhile isDigitCh
  if ds = [] then none else some (sgn * parseVal ds)

/-- The sequence of fields produced by repeated `std::getline(ss, f, ',')`
on a string stream holding `cs`: `getline` fails exactly when the stream
is already exhausted, so a trailing delimiter does not produce a final
empty field, while an empty input produces no field at all. -/
def splitFieldsCh : Str → List Str
  | [] => []
  | c :: cs =>
      if c = ',' then [] :: splitFieldsCh cs
      else
        match splitFieldsCh cs with
        | [] => [[c]]
        | f :: fs => (c :: f) :: fs

/-- Decimal digits of a natural number, fuelled (one unit of fuel per
digit; `n + 1` units always suffice since `n < 10 ^ (n + 1)`). -/
def natToCharsAux : Nat → Nat → List Char
  | 0, _ => []
  | Nat.succ fuel, n =>
      if n < 10 then [Char.ofNat (48 + n)]
      else natToCharsAux fuel (n / 10) ++ [Char.ofNat (48 + n % 10)]

/-- Decimal digits of a natural number, as printed by `operator<<`. -/
def natToChars (n : Nat) : List Char := natToCharsAux (n + 1) n

/-- An `int` as printed by `operator<<`. -/
def intToChars (i : Int) : List Char :=
  if i < 0 then '-' :: natToChars i.natAbs else natToChars i.natAbs

/-- One emergency record (struct `EmergencyCase`). -/
structure EmergencyCase where
  patientID : Int
  patientName : Str
  emergencyType : Str
  priority : Int
deriving DecidableEq, Repr

instance : Inhabited EmergencyCase := ⟨⟨0, [], [], 0⟩⟩

/-- The mutable state of `EmergencyDepartment` together with the contents
of the persisted case log `data/emergency.txt` (`none` = no such file). -/
structure EDState where
  cases : List EmergencyCase
  logFile : Option FileLines
deriving DecidableEq, Repr

/-- The line appended by `saveCaseToFile`:
`id << "," << name << "," << type << "," << priority`. -/
def serializeCase (c : EmergencyCase) : Str :=
  intToChars c.patientID ++ ',' :: c.patientName ++ ',' ::
    c.emergencyType ++ ',' :: intToChars c.priority

/-- `saveCaseToFile` opens the log in append mode (creating it when
missing) and appends one serialized line. -/
def appendCaseLine (f : Option FileLines) (c : EmergencyCase) : Option FileLines :=
  some (f.getD [] ++ [serializeCase c])

/-- The inner loop of `sortCases` from the point where `a` occupies the
current slot: adjacent swap whenever the left priority is strictly
greater, then move right. -/
def bubbleStep (a : EmergencyCase) : List EmergencyCase → List EmergencyCase
  | [] => [a]
  | b :: rest =>
      if a.priority > b.priority then b :: bubbleStep a rest
      else a :: bubbleStep b rest

/-- One full pass of the inner loop of `sortCases`. -/
def bubblePass : List EmergencyCase → List EmergencyCase
  | [] => []
  | a :: rest => bubbleStep a rest

/-- `sortCases`: bubble sort, `size - 1` passes of the inner loop.  (The
C++ passes shrink their right bound, but the skipped tail is exactly the
already-settled maximal suffix, which a full pass leaves untouched.) -/
def sortCases (l : List EmergencyCase) : List EmergencyCase :=
  Nat.iterate bubblePass (l.length - 1) l

/-- The insertion loop of `logEmergencyCase`: walking from the back of the
array, every element with strictly greater priority is shifted one slot
to the right and the new case lands in the hole. -/
def insertRev (c : EmergencyCase) : List EmergencyCase → List EmergencyCase
  | [] => [c]
  | x :: rest =>
      if x.priority > c.priority then x :: insertRev c rest
      else c :: x :: rest

/-- Ordered insert as performed by `logEmergencyCase` (scan from the end,
place after the last element whose priority is `≤` the new one). -/
def insertCase (c : EmergencyCase) (s : List EmergencyCase) : List EmergencyCase :=
  (insertRev c s.reverse).reverse

/-- `cases[idx].priority = newP` (no-op when `idx` is out of range, which
the validated prompts rule out). -/
def setPriorityAt : List EmergencyCase → Nat → Int → List EmergencyCase
  | [], _, _ => []
  | c :: rest, 0, p => { c with priority := p } :: rest
  | c :: rest, Nat.succ n, p => c :: setPriorityAt rest n p

/-- The id parsed from one log line by `generateNextID`: a single
`getline(ss, idStr, ',')` (which fails only on an exhausted stream) and a
`stoi` whose exception is caught and turned into a skip. -/
def lineId (l : Str) : Option Int :=
  match l with
  | [] => none
  | _ => stoiOpt (l.takeWhile (fun c => c ≠ ','))

/-- All ids recorded in the persisted case log, in line order. -/
def fileIds (lines : FileLines) : List Int :=
  lines.filterMap lineId

/-- The `while (existingIDs.find(newID) != existingIDs.end()) newID++;`
loop, with explicit fuel (the loop makes at most `|ids|` steps). -/
def findFreeAux : Nat → Int → List Int → Int
  | 0, n, _ => n
  | Nat.succ fuel, n, ids => if n ∈ ids then findFreeAux fuel (n + 1) ids else n

/-- `generateNextID`: scan the persisted case log (missing file = no ids)
and return the smallest positive integer not recorded there. -/
def generateNextID (file : Option FileLines) : Int :=
  findFreeAux ((fileIds (file.getD [])).length + 1) 1 (fileIds (file.getD []))

/-- `toLowerCase`: bytes `'A'..'Z'` get `+ 32`, all else unchanged. -/
def toLowerCh (c : Char) : Char :=
  if 'A' ≤ c ∧ c ≤ 'Z' then Char.ofNat (c.toNat + 32) else c

/-- `toLowerCase` over a whole string. -/
def toLowerStr (s : Str) : Str := s.map toLowerCh

/-- One token seen by `cin >> choice`: either a successfully extracted
integer or an extraction failure (`cin.fail()`). -/
inductive InTok where
  | num (n : Int)
  | bad
deriving DecidableEq, Repr

/-- `getValidatedInput(min, max, prompt)`: re-prompts on failed extraction
or out-of-range value; after the third invalid entry returns `-1`
(modelled as `none`).  Returns the accepted value and the remaining input.
Exhausted input behaves like an aborted prompt. -/
def getValidatedInput (mn mx : Int) : Nat → List InTok → Option Int × List InTok
  | _, [] => (none, [])
  | attempts, t :: rest =>
      match t with
      | .bad =>
          if attempts + 1 ≥ 3 then (none, rest)
          else getValidatedInput mn mx (attempts + 1) rest
      | .num n =>
          if n < mn ∨ n > mx then
            if attempts + 1 ≥ 3 then (none, rest)
            else getValidatedInput mn mx (attempts + 1) rest
          else (some n, rest)

/-- Parse one line of the case log as `loadExistingEmergencies` does:
four `getline` fields are required (otherwise the line is skipped), then
`stoi` runs unguarded on the id and the priority — a non-numeric field
throws out of the load (`Except.error`). -/
def parseLogLine (l : Str) : Except Unit (Option EmergencyCase) :=
  match splitFieldsCh l with
  | idStr :: nm :: ty :: prStr :: _ =>
      match stoiOpt idStr with
      | none => .error ()
      | some i =>
          match stoiOpt prStr with
          | none => .error ()
          | some pr => .ok (some ⟨i, nm, ty, pr⟩)
  | _ => .ok none

/-- One iteration of the read loop of `loadExistingEmergencies`:
a parsed case is stored only while fewer than 100 cases are held. -/
def loadStep (acc : List EmergencyCase) (l : Str) : Except Unit (List EmergencyCase) :=
  match parseLogLine l with
  | .error e => .error e
  | .ok none => .ok acc
  | .ok (some c) => .ok (if acc.length < 100 then acc ++ [c] else acc)

/-- `loadExistingEmergencies`: a missing file yields an empty store (and
returns before sorting); otherwise every line is processed in order and
the result is bubble-sorted. -/
def loadExistingEmergencies (file : Option FileLines) : Except Unit (List EmergencyCase) :=
  match file with
  | none => .ok []
  | some lines => (lines.foldlM loadStep []).map sortCases

/-- Accumulator of the `loadPatientsFromFile` read loop: current state,
the `existingIDs` set (as a list), and `newCount`. -/
abbrev PatAcc := EDState × List Int × Nat

/-- One iteration of the read loop of `loadPatientsFromFile`: three
`getline` fields required (else skip), `stoi` unguarded on the id (throws
on non-numeric text), duplicate ids skipped, capacity-exceeding cases
silently dropped; an imported case is appended to the store and to the
log file and its id recorded. -/
def patientStep (a : PatAcc) (l : Str) : Except Unit PatAcc :=
  match splitFieldsCh l with
  | idStr :: nm :: ty :: _ =>
      match stoiOpt idStr with
      | none => .error ()
      | some pid =>
          if pid ∈ a.2.1 then .ok a
          else if a.1.cases.length < 100 then
            let c : EmergencyCase := ⟨pid, nm, ty, 6⟩
            .ok (⟨a.1.cases ++ [c], appendCaseLine a.1.logFile c⟩, pid :: a.2.1, a.2.2 + 1)
          else .ok a
  | _ => .ok a

/-- `loadPatientsFromFile`: a missing feed is skipped; otherwise the feed
is imported with dedup against the store's ids, the store is re-sorted
and the number of newly imported patients reported. -/
def loadPatientsFromFile (st : EDState) (pf : Option FileLines) : Except Unit (EDState × Nat) :=
  match pf with
  | none => .ok (st, 0)
  | some lines =>
      match lines.foldlM patientStep (st, st.cases.map (·.patientID), 0) with
      | .error e => .error e
      | .ok a => .ok ({ a.1 with cases := sortCases a.1.cases }, a.2.2)

/-- The `EmergencyDepartment` constructor: start empty, load the case
log, then import the intake feed. -/
def initDepartment (ef pf : Option FileLines) : Except Unit EDState :=
  match loadExistingEmergencies ef with
  | .error e => .error e
  | .ok cs =>
      match loadPatientsFromFile ⟨cs, ef⟩ pf with
      | .error e => .error e
      | .ok r => .ok r.1

/-- How `logEmergencyCase` ends: the capacity report, an abandoned prompt
(`-1` from `getValidatedInput`), the empty-name report, or a logged case. -/
inductive LogCaseResult where
  | capacityError
  | emptyName
  | inputAborted
  | logged (c : EmergencyCase)
deriving DecidableEq, Repr

/-- Emergency type label of menu choices 1–4. -/
def typeFor (tc : Int) : Str :=
  if tc = 1 then "Heart Attack".toList
  else if tc = 2 then "Road Accident".toList
  else if tc = 3 then "Asthma Attack".toList
  else "Severe Burn".toList

/-- Priority assigned with menu choices 1–4. -/
def priFor (tc : Int) : Int :=
  if tc = 1 then 1 else if tc = 2 then 2 else if tc = 3 then 3 else 4

/-- `logEmergencyCase`: capacity check, auto id from the log, name read,
type choice (1–5) through the validated prompt, for choice 5 a custom
type and a validated priority in [1,10]; the new case is shift-inserted
into the array and appended to the log file. -/
def logEmergencyCase (st : EDState) (nameIn ctIn : Str) (toks : List InTok) :
    EDState × LogCaseResult :=
  if st.cases.length ≥ 100 then (st, .capacityError)
  else
    let pid := generateNextID st.logFile
    if nameIn = [] then (st, .emptyName)
    else
      match getValidatedInput 1 5 0 toks with
      | (none, _) => (st, .inputAborted)
      | (some tc, rest) =>
          if tc = 5 then
            match getValidatedInput 1 10 0 rest with
            | (none, _) => (st, .inputAborted)
            | (some pr, _) =>
                let c : EmergencyCase := ⟨pid, nameIn, ctIn, pr⟩
                (⟨insertCase c st.cases, appendCaseLine st.logFile c⟩, .logged c)
          else
            let c : EmergencyCase := ⟨pid, nameIn, typeFor tc, priFor tc⟩
            (⟨insertCase c st.cases, appendCaseLine st.logFile c⟩, .logged c)

/-- `processCriticalCase`: on an empty store only the "no emergency cases
to process" report (`none`); otherwise the front case is shown, every
later case shifts forward, and the size drops by one.  The log file is
not touched. -/
def processCriticalCase (st : EDState) : EDState × Option EmergencyCase :=
  match st.cases with
  | [] => (st, none)
  | c :: rest => ({ st with cases := rest }, some c)

/-- `updatePriority`: choose a method through the validated prompt, find
the target (by case number, or first case-insensitive name match), read a
new priority in [1,10], mutate it in place and re-sort.  Any `-1` prompt
and a failed name lookup leave the state untouched; the log file is never
written. -/
def updatePriorityInteractive (st : EDState) (toks : List InTok) (nameIn : Str) : EDState :=
  if st.cases.length = 0 then st
  else
    match getValidatedInput 1 2 0 toks with
    | (none, _) => st
    | (some m, r1) =>
        if m = 1 then
          match getValidatedInput 1 (st.cases.length : Int) 0 r1 with
          | (none, _) => st
          | (some num, r2) =>
              match getValidatedInput 1 10 0 r2 with
              | (none, _) => st
              | (some newP, _) =>
                  { st with cases := sortCases (setPriorityAt st.cases (num - 1).toNat newP) }
        else
          match st.cases.findIdx? (fun c => toLowerStr c.patientName == toLowerStr nameIn) with
          | none => st
          | some i =>
              match getValidatedInput 1 10 0 r1 with
              | (none, _) => st
              | (some newP, _) =>
                  { st with cases := sortCases (setPriorityAt st.cases i newP) }

/-- A session operation on the running department. -/
inductive Op where
  | log (nameIn ctIn : Str) (toks : List InTok)
  | process
  | update (toks : List InTok) (nameIn : Str)
  | imp (pf : Option FileLines)

/-- Apply one operation; the optional `Int` is the id a successful
`logEmergencyCase` assigned. -/
def applyOp (st : EDState) : Op → Except Unit (EDState × Option Int)
  | .log nameIn ctIn toks =>
      let r := logEmergencyCase st nameIn ctIn toks
      .ok (r.1, match r.2 with | .logged c => some c.patientID | _ => none)
  | .process => .ok ((processCriticalCase st).1, none)
  | .update toks nameIn => .ok (updatePriorityInteractive st toks nameIn, none)
  | .imp pf =>
      match loadPatientsFromFile st pf with
      | .error e => .error e
      | .ok r => .ok (r.1, none)

/-- Run a list of session operations, collecting the ids assigned by the
successful `logEmergencyCase` calls. -/
def runOps (st : EDState) : List Op → Except Unit (EDState × List Int)
  | [] => .ok (st, [])
  | op :: ops =>
      match applyOp st op with
      | .error e => .error e
      | .ok (st1, oid) =>
          match runOps st1 ops with
          | .error e => .error e
          | .ok (st2, ids) => .ok (st2, oid.toList ++ ids)

/-- States reachable from program start (any startup files) by session
operations. -/
inductive Reachable : EDState → Prop where
  | init (ef pf : Option FileLines) (st : EDState) :
      initDepartment ef pf = .ok st → Reachable st
  | log (st : EDState) (nameIn ctIn : Str) (toks : List InTok) :
      Reachable st → Reachable (logEmergencyCase st nameIn ctIn toks).1
  | imp (st : EDState) (pf : Option FileLines) (st' : EDState) (n : Nat) :
      Reachable st → loadPatientsFromFile st pf = .ok (st', n) → Reachable st'
  | process (st : EDState) : Reachable st → Reachable (processCriticalCase st).1
  | update (st : EDState) (toks : List InTok) (nameIn : Str) :
      Reachable st → Reachable (updatePriorityInteractive st toks nameIn)

/-- Ascending priority order (spec invariant I1). -/
def PrioritySorted (l : List EmergencyCase) : Prop :=
  l.Pairwise (fun a b => a.priority ≤ b.priority)

instance : DecidablePred PrioritySorted := fun l =>
  inferInstanceAs (Decidable (l.Pairwise _))

/-- Ids of the cases currently in the store. -/
def storeIds (st : EDState) : List Int := st.cases.map (·.patientID)

/-- Ids recorded in the state's persisted case log. -/
def fileIdsOf (st : EDState) : List Int := fileIds (st.logFile.getD [])

/-- A token the validated prompt rejects for bounds `[mn, mx]`. -/
def invalidTok (mn mx : Int) : InTok → Bool
  | .bad => true
  | .num n => decide (n < mn) || decide (n > mx)

/-- The case a log line contributes, if any (`none` covers both a skipped
line and a line on which `stoi` throws). -/
def parsedLogCase (l : Str) : Option EmergencyCase :=
  match parseLogLine l with
  | .ok (some c) => some c
  | _ => none

/-- `n` invocations of `processCriticalCase`, keeping only the state. -/
def procIter (n : Nat) (st : EDState) : EDState :=
  Nat.iterate (fun s => (processCriticalCase s).1) n st

/-! ## Properties of the bubble sort `sortCases` -/

theorem bubbleStep_perm (l : List EmergencyCase) :
    ∀ a, (bubbleStep a l).Perm (a :: l) := by
  induction l with
  | nil => intro a; simp [bubbleStep]
  | cons b rest ih =>
      intro a
      by_cases h : a.priority > b.priority
      · simp only [bubbleStep, if_pos h]
        exact ((ih a).cons b).trans (List.Perm.swap a b rest)
      · simp only [bubbleStep, if_neg h]
        exact (ih b).cons a

theorem bubblePass_perm (l : List EmergencyCase) : (bubblePass l).Perm l := by
  cases l with
  | nil => simp [bubblePass]
  | cons a rest => exact bubbleStep_perm rest a

theorem bubbleStep_length (l : List EmergencyCase) (a : EmergencyCase) :
    (bubbleStep a l).length = l.length + 1 :=
  (bubbleStep_perm l a).length_eq

theorem bubbleStep_append_max (l : List EmergencyCase) :
    ∀ a m, (∀ x ∈ a :: l, x.priority ≤ m.priority) →
      bubbleStep a (l ++ [m]) = bubbleStep a l ++ [m] := by
  induction l with
  | nil =>
      intro a m hm
      have ha : ¬ a.priority > m.priority := by
        have := hm a (by simp)
        omega
      simp [bubbleStep, ha]
  | cons b rest ih =>
      intro a m hm
      have hma : ∀ x ∈ a :: rest, x.priority ≤ m.priority := by
        intro x hx
        rcases List.mem_cons.mp hx with hx | hx
        · exact hx ▸ hm a (by simp)
        · exact hm x (by simp [hx])
      have hmb : ∀ x ∈ b :: rest, x.priority ≤ m.priority := by
        intro x hx
        rcases List.mem_cons.mp hx with hx | hx
        · exact hx ▸ hm b (by simp)
        · exact hm x (by simp [hx])
      by_cases h : a.priority > b.priority
      · have hstep : bubbleStep a ((b :: rest) ++ [m]) = b :: bubbleStep a (rest ++ [m]) := by
          simp [bubbleStep, h]
        rw [hstep, ih a m hma]
        simp [bubbleStep, h]
      · have hstep : bubbleStep a ((b :: rest) ++ [m]) = a :: bubbleStep b (rest ++ [m]) := by
          simp [bubbleStep, h]
        rw [hstep, ih b m hmb]
        simp [bubbleStep, h]

theorem bubbleStep_max (l : List EmergencyCase) :
    ∀ a, ∃ l' mx, bubbleStep a l = l' ++ [mx] ∧
      ∀ x ∈ a :: l, x.priority ≤ mx.priority := by
  induction l with
  | nil =>
      intro a
      exact ⟨[], a, by simp [bubbleStep], by intro x hx; simp at hx; simp [hx]⟩
  | cons b rest ih =>
      intro a
      by_cases h : a.priority > b.priority
      · obtain ⟨l', mx, heq, hb⟩ := ih a
        refine ⟨b :: l', mx, by simp [bubbleStep, h, heq], ?_⟩
        intro x hx
        rcases List.mem_cons.mp hx with hx | hx
        · exact hx ▸ hb a (by simp)
        · rcases List.mem_cons.mp hx with hx | hx
          · have := hb a (by simp)
            subst hx; omega
          · exact hb x (by simp [hx])
      · obtain ⟨l', mx, heq, hb⟩ := ih b
        refine ⟨a :: l', mx, by simp [bubbleStep, h, heq], ?_⟩
        intro x hx
        rcases List.mem_cons.mp hx with hx | hx
        · have := hb b (by simp)
          subst hx; omega
        · exact hb x hx

theorem iterate_bubblePass_perm (n : Nat) (l : List EmergencyCase) :
    (Nat.iterate bubblePass n l).Perm l := by
  induction n generalizing l with
  | zero => simp
  | succ n ih =>
      rw [Function.iterate_succ_apply]
      exact (ih (bubblePass l)).trans (bubblePass_perm l)

theorem iterate_bubblePass_append_max (n : Nat) :
    ∀ l m, (∀ x ∈ l, x.priority ≤ m.priority) →
      Nat.iterate bubblePass n (l ++ [m]) = Nat.iterate bubblePass n l ++ [m] := by
  induction n with
  | zero => intro l m _; simp
  | succ n ih =>
      intro l m hm
      rw [Function.iterate_succ_apply, Function.iterate_succ_apply]
      have hpass : bubblePass (l ++ [m]) = bubblePass l ++ [m] := by
        cases l with
        | nil => simp [bubblePass, bubbleStep]
        | cons a rest =>
            have : (a :: rest) ++ [m] = a :: (rest ++ [m]) := by simp
            rw [this]
            exact bubbleStep_append_max rest a m hm
      rw [hpass]
      exact ih (bubblePass l) m (fun x hx => hm x ((bubblePass_perm l).mem_iff.mp hx))

theorem iterate_bubblePass_sorted (n : Nat) :
    ∀ l : List EmergencyCase, l.length ≤ n + 1 →
      PrioritySorted (Nat.iterate bubblePass n l) := by
  induction n with
  | zero =>
      intro l hl
      match l, hl with
      | [], _ => exact List.Pairwise.nil
      | [a], _ => simp [PrioritySorted]
  | succ n ih =>
      intro l hl
      rw [Function.iterate_succ_apply]
      cases l with
      | nil =>
          have hfix : bubblePass ([] : List EmergencyCase) = [] := rfl
          rw [hfix, Function.iterate_fixed hfix]
          exact List.Pairwise.nil
      | cons a rest =>
          obtain ⟨l', mx, heq, hb⟩ := bubbleStep_max rest a
          have hpass : bubblePass (a :: rest) = l' ++ [mx] := heq
          rw [hpass]
          have hlen : l'.length = rest.length := by
            have h1 := bubbleStep_length rest a
            rw [heq] at h1
            simp at h1
            omega
          have hmem : ∀ x ∈ l', x.priority ≤ mx.priority := by
            intro x hx
            have : x ∈ bubbleStep a rest := by rw [heq]; simp [hx]
            exact hb x ((bubbleStep_perm rest a).mem_iff.mp this)
          rw [iterate_bubblePass_append_max n l' mx hmem]
          have hsorted : PrioritySorted (Nat.iterate bubblePass n l') := by
            apply ih
            simp at hl
            omega
          unfold PrioritySorted at hsorted ⊢
          rw [List.pairwise_append]
          refine ⟨hsorted, List.pairwise_singleton _ _, ?_⟩
          intro x hx y hy
          simp at hy
          subst hy
          exact hmem x ((iterate_bubblePass_perm n l').mem_iff.mp hx)

theorem sortCases_sorted (l : List EmergencyCase) : PrioritySorted (sortCases l) := by
  unfold sortCases
  apply iterate_bubblePass_sorted
  omega

theorem sortCases_perm (l : List EmergencyCase) : (sortCases l).Perm l :=
  iterate_bubblePass_perm _ l

theorem sortCases_length (l : List EmergencyCase) : (sortCases l).length = l.length :=
  (sortCases_perm l).length_eq

theorem bubbleStep_of_sorted (l : List EmergencyCase) :
    ∀ a, (a :: l).Pairwise (fun x y => x.priority ≤ y.priority) →
      bubbleStep a l = a :: l := by
  induction l with
  | nil => intro a _; rfl
  | cons b rest ih =>
      intro a h
      have hab : a.priority ≤ b.priority := (List.pairwise_cons.mp h).1 b (by simp)
      have hbs : (b :: rest).Pairwise (fun x y => x.priority ≤ y.priority) :=
        (List.pairwise_cons.mp h).2
      have : ¬ a.priority > b.priority := by omega
      simp [bubbleStep, this, ih b hbs]

theorem bubblePass_of_sorted (l : List EmergencyCase) (h : PrioritySorted l) :
    bubblePass l = l := by
  cases l with
  | nil => rfl
  | cons a rest => exact bubbleStep_of_sorted rest a h

theorem sortCases_of_sorted (l : List EmergencyCase) (h : PrioritySorted l) :
    sortCases l = l :=
  Function.iterate_fixed (bubblePass_of_sorted l h) _

/-! ## Stability of the sort on a single priority class -/

theorem bubbleStep_filter (q : EmergencyCase → Bool)
    (hq : ∀ a b, a.priority > b.priority → ¬(q a = true ∧ q b = true))
    (l : List EmergencyCase) :
    ∀ a, (bubbleStep a l).filter q = (a :: l).filter q := by
  induction l with
  | nil => intro a; rfl
  | cons b rest ih =>
      intro a
      by_cases h : a.priority > b.priority
      · have hnot := hq a b h
        have : (bubbleStep a (b :: rest)).filter q = (b :: bubbleStep a rest).filter q := by
          simp [bubbleStep, h]
        rw [this]
        simp only [List.filter_cons]
        rw [ih a]
        simp only [List.filter_cons]
        rcases hqa : q a <;> rcases hqb : q b
        · rfl
        · rfl
        · rfl
        · exact absurd ⟨hqa, hqb⟩ hnot
      · have : (bubbleStep a (b :: rest)).filter q = (a :: bubbleStep b rest).filter q := by
          simp [bubbleStep, h]
        rw [this]
        simp only [List.filter_cons]
        rw [ih b]
        simp only [List.filter_cons]

theorem bubblePass_filter (q : EmergencyCase → Bool)
    (hq : ∀ a b, a.priority > b.priority → ¬(q a = true ∧ q b = true))
    (l : List EmergencyCase) : (bubblePass l).filter q = l.filter q := by
  cases l with
  | nil => rfl
  | cons a rest => exact bubbleStep_filter q hq rest a

theorem sortCases_filter (q : EmergencyCase → Bool)
    (hq : ∀ a b, a.priority > b.priority → ¬(q a = true ∧ q b = true))
    (l : List EmergencyCase) : (sortCases l).filter q = l.filter q := by
  unfold sortCases
  generalize l.length - 1 = n
  induction n generalizing l with
  | zero => rfl
  | succ n ih =>
      rw [Function.iterate_succ_apply, ih (bubblePass l), bubblePass_filter q hq l]

/-! ## The ordered insert of `logEmergencyCase` -/

theorem insertRev_perm (c : EmergencyCase) (l : List EmergencyCase) :
    (insertRev c l).Perm (c :: l) := by
  induction l with
  | nil => simp [insertRev]
  | cons x rest ih =>
      by_cases h : x.priority > c.priority
      · simp only [insertRev, if_pos h]
        exact (ih.cons x).trans (List.Perm.swap c x rest)
      · simp [insertRev, h]

theorem insertCase_perm (c : EmergencyCase) (s : List EmergencyCase) :
    (insertCase c s).Perm (c :: s) := by
  unfold insertCase
  refine (List.reverse_perm _).trans ((insertRev_perm c s.reverse).trans ?_)
  exact (List.reverse_perm s).cons c

theorem insertRev_sorted_desc (c : EmergencyCase) (l : List EmergencyCase)
    (h : l.Pairwise (fun a b => b.priority ≤ a.priority)) :
    (insertRev c l).Pairwise (fun a b => b.priority ≤ a.priority) := by
  induction l with
  | nil => simp [insertRev]
  | cons x rest ih =>
      rcases List.pairwise_cons.mp h with ⟨hx, hrest⟩
      by_cases hcx : x.priority > c.priority
      · simp only [insertRev, if_pos hcx]
        rw [List.pairwise_cons]
        refine ⟨?_, ih hrest⟩
        intro y hy
        have hy2 := (insertRev_perm c rest).mem_iff.mp hy
        rcases List.mem_cons.mp hy2 with hy2 | hy2
        · subst hy2; omega
        · exact hx y hy2
      · simp only [insertRev, if_neg hcx]
        rw [List.pairwise_cons]
        constructor
        · intro y hy
          rcases List.mem_cons.mp hy with hy | hy
          · subst hy; omega
          · have := hx y hy
            omega
        · exact h

theorem insertCase_sorted (c : EmergencyCase) (s : List EmergencyCase)
    (h : PrioritySorted s) : PrioritySorted (insertCase c s) := by
  unfold insertCase PrioritySorted
  rw [List.pairwise_reverse]
  apply insertRev_sorted_desc
  rw [List.pairwise_reverse]
  exact h

theorem insertCase_length (c : EmergencyCase) (s : List EmergencyCase) :
    (insertCase c s).length = s.length + 1 := by
  have h := (insertCase_perm c s).length_eq
  simpa using h

/-! ## `setPriorityAt` -/

theorem setPriorityAt_eq (s : List EmergencyCase) :
    ∀ (k : Nat) (p : Int) (hk : k < s.length),
      setPriorityAt s k p =
        s.take k ++ { s.get ⟨k, hk⟩ with priority := p } :: s.drop (k + 1) := by
  induction s with
  | nil => intro k p hk; simp at hk
  | cons c rest ih =>
      intro k p hk
      cases k with
      | zero => simp [setPriorityAt]
      | succ n =>
          simp only [setPriorityAt, List.take_succ_cons, List.drop_succ_cons]
          rw [ih n p (by simpa using hk)]
          rfl

theorem setPriorityAt_map_id (s : List EmergencyCase) :
    ∀ (k : Nat) (p : Int),
      (setPriorityAt s k p).map (·.patientID) = s.map (·.patientID) := by
  induction s with
  | nil => intro k p; rfl
  | cons c rest ih =>
      intro k p
      cases k with
      | zero => simp [setPriorityAt]
      | succ n => simp [setPriorityAt, ih n p]

theorem setPriorityAt_length (s : List EmergencyCase) :
    ∀ (k : Nat) (p : Int), (setPriorityAt s k p).length = s.length := by
  induction s with
  | nil => intro k p; rfl
  | cons c rest ih =>
      intro k p
      cases k with
      | zero => simp [setPriorityAt]
      | succ n => simp [setPriorityAt, ih n p]

/-! ## The key allocator `generateNextID` -/

theorem findFreeAux_spec (fuel : Nat) :
    ∀ (n : Int) (ids : List Int),
      (ids.toFinset.filter (fun x => n ≤ x)).card < fuel →
      (n ≤ findFreeAux fuel n ids ∧ findFreeAux fuel n ids ∉ ids ∧
        ∀ m, n ≤ m → m < findFreeAux fuel n ids → m ∈ ids) := by
  induction fuel with
  | zero => intro n ids h; omega
  | succ fuel ih =>
      intro n ids h
      by_cases hmem : n ∈ ids
      · have hfilter : ids.toFinset.filter (fun x => n + 1 ≤ x) =
            (ids.toFinset.filter (fun x => n ≤ x)).erase n := by
          ext x
          simp only [Finset.mem_filter, Finset.mem_erase, List.mem_toFinset]
          constructor
          · intro ⟨hx, hle⟩
            exact ⟨by omega, hx, by omega⟩
          · intro ⟨hne, hx, hle⟩
            refine ⟨hx, ?_⟩
            omega
        have hcard : (ids.toFinset.filter (fun x => n + 1 ≤ x)).card < fuel := by
          rw [hfilter]
          have hin : n ∈ ids.toFinset.filter (fun x => n ≤ x) := by
            simp [List.mem_toFinset, hmem]
          have h4 := Finset.card_erase_of_mem hin
          have h5 : 0 < (ids.toFinset.filter (fun x => n ≤ x)).card :=
            Finset.card_pos.mpr ⟨n, hin⟩
          omega
        obtain ⟨h1, h2, h3⟩ := ih (n + 1) ids hcard
        have hstep : findFreeAux (fuel + 1) n ids = findFreeAux fuel (n + 1) ids := by
          simp [findFreeAux, hmem]
        rw [hstep]
        refine ⟨by omega, h2, ?_⟩
        intro m hm1 hm2
        by_cases hmn : m = n
        · exact hmn ▸ hmem
        · exact h3 m (by omega) hm2
      · have hstep : findFreeAux (fuel + 1) n ids = n := by
          simp [findFreeAux, hmem]
        rw [hstep]
        exact ⟨le_refl n, hmem, by omega⟩

theorem generateNextID_spec (file : Option FileLines) :
    (0 < generateNextID file ∧ generateNextID file ∉ fileIds (file.getD []) ∧
      ∀ m, 0 < m → m < generateNextID file → m ∈ fileIds (file.getD [])) := by
  have hcard : ((fileIds (file.getD [])).toFinset.filter (fun x => (1 : Int) ≤ x)).card <
      (fileIds (file.getD [])).length + 1 := by
    have h1 := Finset.card_filter_le (fileIds (file.getD [])).toFinset (fun x => (1 : Int) ≤ x)
    have h2 := (fileIds (file.getD [])).toFinset_card_le
    omega
  obtain ⟨h1, h2, h3⟩ := findFreeAux_spec _ 1 (fileIds (file.getD [])) hcard
  exact ⟨by unfold generateNextID; omega,
    by unfold generateNextID; exact h2,
    by intro m hm1 hm2; exact h3 m (by omega) (by unfold generateNextID at hm2; exact hm2)⟩

/-! ## Round trip: printed ids parse back to themselves -/

theorem digit_facts (d : Nat) (hd : d < 10) :
    isDigitCh (Char.ofNat (48 + d)) = true ∧
    (Char.ofNat (48 + d)).isWhitespace = false ∧
    Char.ofNat (48 + d) ≠ ',' ∧ Char.ofNat (48 + d) ≠ '-' ∧
    Char.ofNat (48 + d) ≠ '+' ∧ (Char.ofNat (48 + d)).toNat = 48 + d := by
  interval_cases d <;> exact ⟨rfl, rfl, by decide, by decide, by decide, rfl⟩

theorem natToCharsAux_spec (fuel : Nat) :
    ∀ n, n < 10 ^ fuel → 0 < fuel →
      natToCharsAux fuel n ≠ [] ∧
      (∀ c ∈ natToCharsAux fuel n, ∃ d, d < 10 ∧ c = Char.ofNat (48 + d)) ∧
      ∀ a : Int,
        (natToCharsAux fuel n).foldl (fun a c => a * 10 + ((c.toNat : Int) - 48)) a =
          a * 10 ^ (natToCharsAux fuel n).length + n := by
  induction fuel with
  | zero => intro n _ hf; omega
  | succ fuel ih =>
      intro n hn _
      by_cases h10 : n < 10
      · have heq : natToCharsAux (fuel + 1) n = [Char.ofNat (48 + n)] := by
          simp [natToCharsAux, h10]
        obtain ⟨_, _, _, _, _, htn⟩ := digit_facts n h10
        refine ⟨by simp [heq], ?_, ?_⟩
        · intro c hc
          rw [heq] at hc
          simp at hc
          exact ⟨n, h10, hc⟩
        · intro a
          rw [heq]
          simp only [List.foldl_cons, List.foldl_nil, List.length_cons, List.length_nil,
            htn, pow_one]
          push_cast
          ring
      · have hdiv : n / 10 < 10 ^ fuel := by
          rw [Nat.div_lt_iff_lt_mul (by omega)]
          calc n < 10 ^ (fuel + 1) := hn
            _ = 10 ^ fuel * 10 := by rw [pow_succ]
        have hfpos : 0 < fuel := by
          by_contra hf0
          have : fuel = 0 := by omega
          subst this
          simp at hdiv
          omega
        obtain ⟨hne, hdig, hfold⟩ := ih (n / 10) hdiv hfpos
        have heq : natToCharsAux (fuel + 1) n =
            natToCharsAux fuel (n / 10) ++ [Char.ofNat (48 + n % 10)] := by
          simp [natToCharsAux, h10]
        obtain ⟨_, _, _, _, _, htn⟩ := digit_facts (n % 10) (Nat.mod_lt n (by omega))
        refine ⟨by simp [heq], ?_, ?_⟩
        · intro c hc
          rw [heq] at hc
          rcases List.mem_append.mp hc with hc | hc
          · exact hdig c hc
          · simp at hc
            exact ⟨n % 10, Nat.mod_lt n (by omega), hc⟩
        · intro a
          rw [heq, List.foldl_append]
          simp only [List.foldl_cons, List.foldl_nil]
          rw [hfold a, htn, List.length_append, List.length_cons, List.length_nil, pow_succ]
          have key : ((n / 10 : Nat) : Int) * 10 + (((48 + n % 10 : Nat) : Int) - 48) =
              (n : Int) := by
            have hdm := Nat.div_add_mod n 10
            push_cast
            omega
          linear_combination key

theorem takeWhile_all {α : Type} (p : α → Bool) (l : List α)
    (h : ∀ c ∈ l, p c = true) : l.takeWhile p = l := by
  induction l with
  | nil => rfl
  | cons a rest ih =>
      rw [List.takeWhile_cons, if_pos (h a (by simp))]
      rw [ih (fun c hc => h c (by simp [hc]))]

theorem takeWhile_append_stop {α : Type} (p : α → Bool) (l1 : List α) (b : α) (l2 : List α)
    (h1 : ∀ x ∈ l1, p x = true) (hb : p b = false) :
    (l1 ++ b :: l2).takeWhile p = l1 := by
  induction l1 with
  | nil => simp [List.takeWhile_cons, hb]
  | cons a rest ih =>
      rw [List.cons_append, List.takeWhile_cons, if_pos (h1 a (by simp))]
      rw [ih (fun x hx => h1 x (by simp [hx]))]

theorem natToChars_spec (n : Nat) :
    natToChars n ≠ [] ∧
    (∀ c ∈ natToChars n, ∃ d, d < 10 ∧ c = Char.ofNat (48 + d)) ∧
    parseVal (natToChars n) = (n : Int) := by
  have hlt : n < 10 ^ (n + 1) :=
    lt_of_lt_of_le (Nat.lt_pow_self (by omega) n) (Nat.pow_le_pow_right (by omega) (by omega))
  obtain ⟨h1, h2, h3⟩ := natToCharsAux_spec (n + 1) n hlt (by omega)
  refine ⟨h1, h2, ?_⟩
  unfold parseVal natToChars
  rw [h3 0]
  simp

theorem stoiOpt_unfold (cs : Str) :
    stoiOpt cs =
      if (if (cs.dropWhile Char.isWhitespace).head? = some '-' ∨
            (cs.dropWhile Char.isWhitespace).head? = some '+'
          then (cs.dropWhile Char.isWhitespace).tail
          else cs.dropWhile Char.isWhitespace).takeWhile isDigitCh = []
      then none
      else some (((if (cs.dropWhile Char.isWhitespace).head? = some '-' then -1 else 1) : Int) *
        parseVal ((if (cs.dropWhile Char.isWhitespace).head? = some '-' ∨
            (cs.dropWhile Char.isWhitespace).head? = some '+'
          then (cs.dropWhile Char.isWhitespace).tail
          else cs.dropWhile Char.isWhitespace).takeWhile isDigitCh)) := rfl

theorem stoiOpt_all_digits (l : Str) (hne : l ≠ [])
    (hdig : ∀ c ∈ l, ∃ d, d < 10 ∧ c = Char.ofNat (48 + d)) :
    stoiOpt l = some (parseVal l) := by
  obtain ⟨c0, cs, hcons⟩ := List.exists_cons_of_ne_nil hne
  obtain ⟨d, hd, hc0⟩ := hdig c0 (by rw [hcons]; simp)
  obtain ⟨hdg, hws, hcm, hmi, hpl, htn⟩ := digit_facts d hd
  have hws0 : c0.isWhitespace = false := by rw [hc0]; exact hws
  have hmi0 : ¬c0 = '-' := by rw [hc0]; exact hmi
  have hpl0 : ¬c0 = '+' := by rw [hc0]; exact hpl
  have hdrop : l.dropWhile Char.isWhitespace = l := by
    rw [hcons, List.dropWhile_cons]
    simp [hws0]
  have htake : l.takeWhile isDigitCh = l := by
    apply takeWhile_all
    intro c hc
    obtain ⟨d2, hd2, hc2⟩ := hdig c hc
    rw [hc2]
    exact (digit_facts d2 hd2).1
  have hhead : l.head? = some c0 := by rw [hcons]; rfl
  have hm : ¬(l.head? = some '-') := by rw [hhead]; simp [hmi0]
  have hp : ¬(l.head? = some '-' ∨ l.head? = some '+') := by
    rw [hhead]
    simp [hmi0, hpl0]
  rw [stoiOpt_unfold, hdrop, if_neg hm, if_neg hp, htake, if_neg hne]
  simp

theorem stoiOpt_natToChars (n : Nat) : stoiOpt (natToChars n) = some (n : Int) := by
  obtain ⟨h1, h2, h3⟩ := natToChars_spec n
  rw [stoiOpt_all_digits (natToChars n) h1 h2, h3]

theorem stoiOpt_intToChars (i : Int) : stoiOpt (intToChars i) = some i := by
  by_cases hneg : i < 0
  · obtain ⟨h1, h2, h3⟩ := natToChars_spec i.natAbs
    have hit : intToChars i = '-' :: natToChars i.natAbs := by
      simp [intToChars, hneg]
    have htake : (natToChars i.natAbs).takeWhile isDigitCh = natToChars i.natAbs := by
      apply takeWhile_all
      intro c hc
      obtain ⟨d2, hd2, hc2⟩ := h2 c hc
      rw [hc2]
      exact (digit_facts d2 hd2).1
    have hdrop : ('-' :: natToChars i.natAbs).dropWhile Char.isWhitespace =
        '-' :: natToChars i.natAbs := by
      rw [List.dropWhile_cons]
      simp
    have hhead : ('-' :: natToChars i.natAbs).head? = some '-' := rfl
    rw [hit, stoiOpt_unfold, hdrop, if_pos hhead, if_pos (Or.inl hhead), List.tail_cons,
      htake, if_neg h1, h3]
    congr 1
    omega
  · have hit : intToChars i = natToChars i.natAbs := by
      simp [intToChars, hneg]
    rw [hit, stoiOpt_natToChars i.natAbs]
    congr 1
    omega

theorem intToChars_chars (i : Int) :
    ∀ c ∈ intToChars i, c ≠ ',' ∧ c.isWhitespace = false := by
  intro c hc
  have hdigCase : ∀ x ∈ natToChars i.natAbs, x ≠ ',' ∧ x.isWhitespace = false := by
    intro x hx
    obtain ⟨d, hd, hxd⟩ := (natToChars_spec i.natAbs).2.1 x hx
    rw [hxd]
    exact ⟨(digit_facts d hd).2.2.1, (digit_facts d hd).2.1⟩
  by_cases hneg : i < 0
  · rw [intToChars, if_pos hneg] at hc
    rcases List.mem_cons.mp hc with hc | hc
    · subst hc
      exact ⟨by decide, by decide⟩
    · exact hdigCase c hc
  · rw [intToChars, if_neg hneg] at hc
    exact hdigCase c hc

theorem intToChars_ne_nil (i : Int) : intToChars i ≠ [] := by
  by_cases hneg : i < 0
  · simp [intToChars, hneg]
  · rw [intToChars, if_neg hneg]
    exact (natToChars_spec i.natAbs).1

theorem serializeCase_flat (c : EmergencyCase) :
    serializeCase c = intToChars c.patientID ++ ',' ::
      (c.patientName ++ ',' :: (c.emergencyType ++ ',' :: intToChars c.priority)) := by
  unfold serializeCase
  simp

theorem lineId_serialize (c : EmergencyCase) :
    lineId (serializeCase c) = some c.patientID := by
  obtain ⟨c0, cs, hic⟩ := List.exists_cons_of_ne_nil (intToChars_ne_nil c.patientID)
  have hser : serializeCase c =
      c0 :: (cs ++ ',' :: (c.patientName ++ ',' :: (c.emergencyType ++
        ',' :: intToChars c.priority))) := by
    rw [serializeCase_flat, hic]
    simp
  have htw : (serializeCase c).takeWhile (fun x => x ≠ ',') = intToChars c.patientID := by
    rw [serializeCase_flat]
    apply takeWhile_append_stop
    · intro x hx
      simp only [decide_eq_true_eq]
      exact (intToChars_chars c.patientID x hx).1
    · simp
  rw [hser]
  show stoiOpt ((c0 :: (cs ++ ',' :: (c.patientName ++ ',' :: (c.emergencyType ++
        ',' :: intToChars c.priority)))).takeWhile (fun x => x ≠ ',')) = some c.patientID
  rw [← hser, htw, stoiOpt_intToChars]

theorem fileIds_append (lines : FileLines) (c : EmergencyCase) :
    fileIds (lines ++ [serializeCase c]) = fileIds lines ++ [c.patientID] := by
  unfold fileIds
  rw [List.filterMap_append]
  simp [lineId_serialize]

/-! ## Claim C5: the key allocator -/

/-- C5: `generateNextID` returns the smallest positive integer that is
not among the ids successfully parsed from the first comma-separated
field of each persisted log line; a missing or unreadable log yields 1.
(The scan is modelled as a pure function of the file contents: it touches
neither the store nor any file.) -/
theorem claim_C5_generateNextID (file : Option FileLines) :
    (0 < generateNextID file ∧
     generateNextID file ∉ fileIds (file.getD []) ∧
     (∀ m : Int, 0 < m → m < generateNextID file → m ∈ fileIds (file.getD []))) ∧
    generateNextID none = 1 := by
  refine ⟨generateNextID_spec file, by decide⟩

/-- C5 witness: on a log recording ids 1 and 2 the allocator returns 3,
and 2 is indeed recorded. -/
theorem claim_C5_generateNextID_witness :
    generateNextID (some ["1,A,x,2".toList, "2,B,y,3".toList]) = 3 ∧
    (2 : Int) ∈ fileIds ((some ["1,A,x,2".toList, "2,B,y,3".toList]).getD []) := by
  refine ⟨by decide, ?_⟩
  exact (claim_C5_generateNextID (some ["1,A,x,2".toList, "2,B,y,3".toList])).1.2.2 2
    (by decide) (by decide)

/-! ## Claim C1: what reaches the disk after update / removal -/

/-- C1 (amended): neither a priority update (whether or not it finds its
target) nor `processCriticalCase` ever writes the case log: both mutate
only the in-memory store, so the on-disk log keeps its previous lines
(the log is only appended to when a case is created). -/
theorem claim_C1_no_log_rewrite (st : EDState) (toks : List InTok) (nameIn : Str) :
    (updatePriorityInteractive st toks nameIn).logFile = st.logFile ∧
    (processCriticalCase st).1.logFile = st.logFile := by
  constructor
  · unfold updatePriorityInteractive
    repeat' split
    all_goals rfl
  · unfold processCriticalCase
    repeat' split
    all_goals rfl

/-- C1 witness: a priority update that finds case 1 and a removal both
leave a concrete log file byte-for-byte unchanged. -/
theorem claim_C1_no_log_rewrite_witness :
    (updatePriorityInteractive ⟨[⟨1, "Ann".toList, "Burn".toList, 4⟩],
        some ["1,Ann,Burn,4".toList]⟩ [.num 1, .num 1, .num 2] []).logFile =
      some ["1,Ann,Burn,4".toList] ∧
    (processCriticalCase ⟨[⟨1, "Ann".toList, "Burn".toList, 4⟩],
        some ["1,Ann,Burn,4".toList]⟩).1.logFile = some ["1,Ann,Burn,4".toList] :=
  claim_C1_no_log_rewrite ⟨[⟨1, "Ann".toList, "Burn".toList, 4⟩],
    some ["1,Ann,Burn,4".toList]⟩ [.num 1, .num 1, .num 2] []

/-- C1 counterexample: a priority update that finds its target mutates
the store (case 1 moves from priority 4 to 2) yet the log file afterwards
is not the serialization of the mutated store, and likewise after a
removal the log still lists the removed case — no full rewrite happens. -/
theorem claim_C1_counterexample :
    (updatePriorityInteractive ⟨[⟨1, "Ann".toList, "Burn".toList, 4⟩],
        some ["1,Ann,Burn,4".toList]⟩ [.num 1, .num 1, .num 2] []).cases =
      [⟨1, "Ann".toList, "Burn".toList, 2⟩] ∧
    ¬((updatePriorityInteractive ⟨[⟨1, "Ann".toList, "Burn".toList, 4⟩],
        some ["1,Ann,Burn,4".toList]⟩ [.num 1, .num 1, .num 2] []).logFile =
      some (((updatePriorityInteractive ⟨[⟨1, "Ann".toList, "Burn".toList, 4⟩],
        some ["1,Ann,Burn,4".toList]⟩ [.num 1, .num 1, .num 2] []).cases).map serializeCase)) ∧
    ¬((processCriticalCase ⟨[⟨1, "A".toList, "x".toList, 1⟩, ⟨2, "B".toList, "y".toList, 5⟩],
        some ["1,A,x,1".toList, "2,B,y,5".toList]⟩).1.logFile =
      some (((processCriticalCase ⟨[⟨1, "A".toList, "x".toList, 1⟩,
        ⟨2, "B".toList, "y".toList, 5⟩],
        some ["1,A,x,1".toList, "2,B,y,5".toList]⟩).1.cases).map serializeCase)) := by
  refine ⟨by decide, by decide, by decide⟩

/-! ## Claim C3: position of an updated case after the re-sort -/

/-- C3 (amended): after `updatePriority` sets a case's priority to a new
value `p ∈ [1,10]` and re-sorts, the store is again fully sorted
ascending by priority; and when `p` is strictly below the case's former
priority, the updated case sits at the end of the run of cases sharing
priority `p` (the last element of its new priority group).  (When the
priority is raised into an existing group the stable bubble sort instead
leaves the updated case at the start of that group.) -/
theorem claim_C3_update_position (s : List EmergencyCase) (k : Nat) (p : Int)
    (c0 : EmergencyCase) (hs : PrioritySorted s) (hk : k < s.length)
    (hc0 : s.get ⟨k, hk⟩ = c0) (hp1 : 1 ≤ p) (hp10 : p ≤ 10)
    (hdec : p < c0.priority) :
    PrioritySorted (sortCases (setPriorityAt s k p)) ∧
    ((sortCases (setPriorityAt s k p)).filter (fun c => c.priority == p)).getLast? =
      some { c0 with priority := p } := by
  refine ⟨sortCases_sorted _, ?_⟩
  have hq : ∀ a b : EmergencyCase, a.priority > b.priority →
      ¬((a.priority == p) = true ∧ (b.priority == p) = true) := by
    intro a b hab ⟨ha, hb⟩
    rw [beq_iff_eq] at ha hb
    omega
  rw [sortCases_filter (fun c => c.priority == p) hq]
  rw [setPriorityAt_eq s k p hk, hc0]
  rw [List.filter_append, List.filter_cons]
  have hqc : ({ c0 with priority := p }.priority == p) = true := by simp
  rw [if_pos hqc]
  have hdropnil : (s.drop (k + 1)).filter (fun c => c.priority == p) = [] := by
    rw [List.filter_eq_nil_iff]
    intro x hx
    obtain ⟨i, hi, hxi⟩ := List.mem_iff_getElem.mp hx
    have hi2 : i < s.length - (k + 1) := by simpa using hi
    have hlen : k + 1 + i < s.length := by omega
    have hdi : (s.drop (k + 1))[i] = s[k + 1 + i] := List.getElem_drop s
    have hk0 : s[k] = c0 := by
      rw [← hc0]
      simp
    have hpw := List.pairwise_iff_getElem.mp hs k (k + 1 + i) hk hlen (by omega)
    rw [hdi] at hxi
    rw [hk0, hxi] at hpw
    simp only [beq_iff_eq]
    omega
  rw [hdropnil]
  exact List.getLast?_concat _

/-- C3 witness: in the sorted store [(id 1, p 3), (id 2, p 5)], lowering
case 2's priority to 2 re-sorts the store and leaves the updated case as
the last (only) member of its new priority group. -/
theorem claim_C3_update_position_witness :
    PrioritySorted (sortCases (setPriorityAt
      [⟨1, "A".toList, "x".toList, 3⟩, ⟨2, "B".toList, "y".toList, 5⟩] 1 2)) ∧
    ((sortCases (setPriorityAt
      [⟨1, "A".toList, "x".toList, 3⟩, ⟨2, "B".toList, "y".toList, 5⟩] 1 2)).filter
        (fun c => c.priority == 2)).getLast? = some ⟨2, "B".toList, "y".toList, 2⟩ :=
  claim_C3_update_position
    [⟨1, "A".toList, "x".toList, 3⟩, ⟨2, "B".toList, "y".toList, 5⟩] 1 2
    ⟨2, "B".toList, "y".toList, 5⟩ (by decide) (by decide) (by decide)
    (by decide) (by decide) (by decide)

/-- C3 counterexample: raising the priority of case 1 from 1 to 5 in the
store [(id 1, p 1), (id 2, p 5)] re-sorts to [(id 1, p 5), (id 2, p 5)]:
the updated case ends up at the START of its new priority group, not at
its end as the claim states. -/
theorem claim_C3_counterexample :
    ¬(((sortCases (setPriorityAt
        [⟨1, "A".toList, "x".toList, 1⟩, ⟨2, "B".toList, "y".toList, 5⟩] 0 5)).filter
          (fun c => c.priority == 5)).getLast? =
      some ⟨1, "A".toList, "x".toList, 5⟩) := by decide

/-! ## Claim C10: aborted prompts leave the store untouched -/

theorem gvi_invalid_step (mn mx : Int) (a : Nat) (t : InTok) (rest : List InTok)
    (h : invalidTok mn mx t = true) (ha : a + 1 < 3) :
    getValidatedInput mn mx a (t :: rest) = getValidatedInput mn mx (a + 1) rest := by
  have ha2 : ¬(a + 1 ≥ 3) := by omega
  cases t with
  | bad =>
      show (if a + 1 ≥ 3 then ((none : Option Int), rest)
        else getValidatedInput mn mx (a + 1) rest) = getValidatedInput mn mx (a + 1) rest
      rw [if_neg ha2]
  | num n =>
      simp only [invalidTok, Bool.or_eq_true, decide_eq_true_eq] at h
      show (if n < mn ∨ n > mx then
          (if a + 1 ≥ 3 then ((none : Option Int), rest)
            else getValidatedInput mn mx (a + 1) rest)
        else (some n, rest)) = getValidatedInput mn mx (a + 1) rest
      rw [if_pos h, if_neg ha2]

theorem gvi_invalid_last (mn mx : Int) (a : Nat) (t : InTok) (rest : List InTok)
    (h : invalidTok mn mx t = true) (ha : a + 1 ≥ 3) :
    getValidatedInput mn mx a (t :: rest) = (none, rest) := by
  cases t with
  | bad =>
      show (if a + 1 ≥ 3 then ((none : Option Int), rest)
        else getValidatedInput mn mx (a + 1) rest) = (none, rest)
      rw [if_pos ha]
  | num n =>
      simp only [invalidTok, Bool.or_eq_true, decide_eq_true_eq] at h
      show (if n < mn ∨ n > mx then
          (if a + 1 ≥ 3 then ((none : Option Int), rest)
            else getValidatedInput mn mx (a + 1) rest)
        else (some n, rest)) = (none, rest)
      rw [if_pos h, if_pos ha]

/-- C10: three invalid entries make `getValidatedInput` return the abort
sentinel (`-1`, modelled `none`), and every interactive caller that sees
the sentinel — `logEmergencyCase` at either of its prompts,
`updatePriority` at any of its prompts — returns with the case store and
its size exactly as they were (no partial mutation). -/
theorem claim_C10_prompt_abort :
    (∀ (mn mx : Int) (t1 t2 t3 : InTok) (rest : List InTok),
      invalidTok mn mx t1 = true → invalidTok mn mx t2 = true → invalidTok mn mx t3 = true →
      getValidatedInput mn mx 0 (t1 :: t2 :: t3 :: rest) = (none, rest)) ∧
    (∀ (st : EDState) (nameIn ctIn : Str) (toks : List InTok),
      (getValidatedInput 1 5 0 toks).1 = none →
      (logEmergencyCase st nameIn ctIn toks).1 = st) ∧
    (∀ (st : EDState) (nameIn ctIn : Str) (toks rest : List InTok),
      getValidatedInput 1 5 0 toks = (some 5, rest) →
      (getValidatedInput 1 10 0 rest).1 = none →
      (logEmergencyCase st nameIn ctIn toks).1 = st) ∧
    (∀ (st : EDState) (toks : List InTok) (nameIn : Str),
      (getValidatedInput 1 2 0 toks).1 = none →
      updatePriorityInteractive st toks nameIn = st) ∧
    (∀ (st : EDState) (toks r1 : List InTok) (nameIn : Str),
      getValidatedInput 1 2 0 toks = (some 1, r1) →
      (getValidatedInput 1 (st.cases.length : Int) 0 r1).1 = none →
      updatePriorityInteractive st toks nameIn = st) ∧
    (∀ (st : EDState) (toks r1 r2 : List InTok) (nameIn : Str) (num : Int),
      getValidatedInput 1 2 0 toks = (some 1, r1) →
      getValidatedInput 1 (st.cases.length : Int) 0 r1 = (some num, r2) →
      (getValidatedInput 1 10 0 r2).1 = none →
      updatePriorityInteractive st toks nameIn = st) ∧
    (∀ (st : EDState) (toks r1 : List InTok) (nameIn : Str),
      getValidatedInput 1 2 0 toks = (some 2, r1) →
      (getValidatedInput 1 10 0 r1).1 = none →
      updatePriorityInteractive st toks nameIn = st) := by
  refine ⟨?_, ?_, ?_, ?_, ?_, ?_, ?_⟩
  · intro mn mx t1 t2 t3 rest h1 h2 h3
    rw [gvi_invalid_step mn mx 0 t1 _ h1 (by omega),
      gvi_invalid_step mn mx 1 t2 _ h2 (by omega),
      gvi_invalid_last mn mx 2 t3 rest h3 (by omega)]
  · intro st nameIn ctIn toks h
    unfold logEmergencyCase
    split
    · rfl
    · split
      · rfl
      · rcases hgv : getValidatedInput 1 5 0 toks with ⟨fst, r⟩
        rw [hgv] at h
        simp only at h
        subst h
        rfl
  · intro st nameIn ctIn toks rest h5 h2
    unfold logEmergencyCase
    split
    · rfl
    · split
      · rfl
      · rw [h5]
        simp only [ite_true, if_pos rfl]
        rcases hgv : getValidatedInput 1 10 0 rest with ⟨fst, r⟩
        rw [hgv] at h2
        simp only at h2
        subst h2
        rfl
  · intro st toks nameIn h
    unfold updatePriorityInteractive
    split
    · rfl
    · rcases hgv : getValidatedInput 1 2 0 toks with ⟨fst, r⟩
      rw [hgv] at h
      simp only at h
      subst h
      rfl
  · intro st toks r1 nameIn hm h
    unfold updatePriorityInteractive
    split
    · rfl
    · rw [hm]
      simp only [ite_true, if_pos rfl]
      rcases hgv : getValidatedInput 1 (st.cases.length : Int) 0 r1 with ⟨fst, r⟩
      rw [hgv] at h
      simp only at h
      subst h
      rfl
  · intro st toks r1 r2 nameIn num hm hn h
    unfold updatePriorityInteractive
    split
    · rfl
    · rw [hm]
      show (match getValidatedInput 1 (st.cases.length : Int) 0 r1 with
          | (none, _) => st
          | (some num2, r22) =>
            match getValidatedInput 1 10 0 r22 with
            | (none, _) => st
            | (some newP, _) =>
              { st with cases := sortCases (setPriorityAt st.cases (num2 - 1).toNat newP) }) = st
      rw [hn]
      show (match getValidatedInput 1 10 0 r2 with
          | (none, _) => st
          | (some newP, _) =>
            { st with cases := sortCases (setPriorityAt st.cases (num - 1).toNat newP) }) = st
      rcases hgv : getValidatedInput 1 10 0 r2 with ⟨fst, r⟩
      rw [hgv] at h
      simp only at h
      subst h
      rfl
  · intro st toks r1 nameIn hm h
    unfold updatePriorityInteractive
    split
    · rfl
    · rw [hm]
      have h21 : ¬((2 : Int) = 1) := by omega
      show (if (2 : Int) = 1 then
          (match getValidatedInput 1 (st.cases.length : Int) 0 r1 with
            | (none, _) => st
            | (some num2, r22) =>
              match getValidatedInput 1 10 0 r22 with
              | (none, _) => st
              | (some newP, _) =>
                { st with cases := sortCases (setPriorityAt st.cases (num2 - 1).toNat newP) })
        else
          (match st.cases.findIdx? (fun c => toLowerStr c.patientName == toLowerStr nameIn) with
            | none => st
            | some i =>
              match getValidatedInput 1 10 0 r1 with
              | (none, _) => st
              | (some newP, _) =>
                { st with cases := sortCases (setPriorityAt st.cases i newP) })) = st
      rw [if_neg h21]
      rcases hf : st.cases.findIdx? (fun c => toLowerStr c.patientName == toLowerStr nameIn) with
        _ | i
      · rw [hf]
      · rcases hgv : getValidatedInput 1 10 0 r1 with ⟨fst, r⟩
        rw [hgv] at h
        simp only at h
        subst h
        rw [hf]

/-- C10 witness: three invalid entries (a failed extraction, 9 and 0 out
of the range [1,5]) abort the prompt, and a `logEmergencyCase` whose type
prompt is aborted that way leaves a concrete one-case store untouched. -/
theorem claim_C10_prompt_abort_witness :
    getValidatedInput 1 5 0 [InTok.bad, InTok.num 9, InTok.num 0] = (none, []) ∧
    (logEmergencyCase ⟨[⟨1, "A".toList, "x".toList, 1⟩], none⟩ "Zed".toList []
      [InTok.bad, InTok.num 9, InTok.num 0]).1 = ⟨[⟨1, "A".toList, "x".toList, 1⟩], none⟩ := by
  constructor
  · exact claim_C10_prompt_abort.1 1 5 InTok.bad (InTok.num 9) (InTok.num 0) []
      (by decide) (by decide) (by decide)
  · exact claim_C10_prompt_abort.2.1 ⟨[⟨1, "A".toList, "x".toList, 1⟩], none⟩
      "Zed".toList []  [InTok.bad, InTok.num 9, InTok.num 0] (by decide)

/-! ## Claim C2: parse failures while loading -/

theorem loadFold_ok (lines : FileLines) :
    ∀ acc : List EmergencyCase,
      (∀ l ∈ lines, parseLogLine l ≠ .error ()) →
      acc.length + (lines.filterMap parsedLogCase).length ≤ 100 →
      lines.foldlM loadStep acc = .ok (acc ++ lines.filterMap parsedLogCase) := by
  induction lines with
  | nil =>
      intro acc _ _
      simp only [List.foldlM_nil, List.filterMap_nil, List.append_nil]
      rfl
  | cons l ls ih =>
      intro acc h1 h2
      rcases hp : parseLogLine l with e | oc
      · exact absurd (by cases e; exact hp) (h1 l (by simp))
      · rcases oc with _ | c
        · have hparsed : parsedLogCase l = none := by
            unfold parsedLogCase
            rw [hp]
          have : (l :: ls).foldlM loadStep acc = ls.foldlM loadStep acc := by
            show (loadStep acc l >>= fun a => ls.foldlM loadStep a) = ls.foldlM loadStep acc
            unfold loadStep
            rw [hp]
            rfl
          rw [this, List.filterMap_cons, hparsed]
          exact ih acc (fun x hx => h1 x (by simp [hx]))
            (by rw [List.filterMap_cons, hparsed] at h2; exact h2)
        · have hparsed : parsedLogCase l = some c := by
            unfold parsedLogCase
            rw [hp]
          have hlen : acc.length < 100 := by
            rw [List.filterMap_cons, hparsed] at h2
            simp at h2
            omega
          have : (l :: ls).foldlM loadStep acc = ls.foldlM loadStep (acc ++ [c]) := by
            show (loadStep acc l >>= fun a => ls.foldlM loadStep a) = ls.foldlM loadStep (acc ++ [c])
            unfold loadStep
            rw [hp]
            show ls.foldlM loadStep (if acc.length < 100 then acc ++ [c] else acc) =
              ls.foldlM loadStep (acc ++ [c])
            rw [if_pos hlen]
          rw [this, List.filterMap_cons, hparsed]
          have hr := ih (acc ++ [c]) (fun x hx => h1 x (by simp [hx]))
            (by
              rw [List.filterMap_cons, hparsed] at h2
              simp at h2 ⊢
              omega)
          rw [hr]
          simp

/-- C2 (amended): a log line that does not split into at least four
comma-separated fields — and a feed line that does not split into at
least three — is skipped and loading continues, and when no line carries
non-numeric id/priority text in a sufficiently-fielded line, every
well-formed line is taken up (in file order, then sorted).  However a
line with enough fields whose id or priority field is not numeric text
makes the unguarded `stoi` throw, aborting the whole load rather than
skipping the line. -/
theorem claim_C2_parse_skip :
    (∀ lines : FileLines,
      (∀ l ∈ lines, parseLogLine l ≠ .error ()) →
      (lines.filterMap parsedLogCase).length ≤ 100 →
      loadExistingEmergencies (some lines) =
        .ok (sortCases (lines.filterMap parsedLogCase))) ∧
    (∀ l : Str, (splitFieldsCh l).length < 4 → parseLogLine l = .ok none) ∧
    (∀ (a : PatAcc) (l : Str), (splitFieldsCh l).length < 3 → patientStep a l = .ok a) := by
  refine ⟨?_, ?_, ?_⟩
  · intro lines h1 h2
    show Except.map sortCases (lines.foldlM loadStep []) =
      Except.ok (sortCases (lines.filterMap parsedLogCase))
    rw [loadFold_ok lines [] h1 (by simpa using h2)]
    rfl
  · intro l hlen
    unfold parseLogLine
    rcases hsp : splitFieldsCh l with _ | ⟨f1, _ | ⟨f2, _ | ⟨f3, _ | ⟨f4, rest⟩⟩⟩⟩
    · rfl
    · rfl
    · rfl
    · rfl
    · rw [hsp] at hlen
      simp at hlen
      omega
  · intro a l hlen
    unfold patientStep
    rcases hsp : splitFieldsCh l with _ | ⟨f1, _ | ⟨f2, _ | ⟨f3, rest⟩⟩⟩
    · rfl
    · rfl
    · rfl
    · rw [hsp] at hlen
      simp at hlen
      omega

/-- C2 witness: a log whose middle line has too few fields loads the two
well-formed lines (sorted by priority) and skips the malformed one. -/
theorem claim_C2_parse_skip_witness :
    loadExistingEmergencies (some
        ["5,Bob,Burn,3".toList, "junk".toList, "2,A,x,1".toList]) =
      .ok [⟨2, "A".toList, "x".toList, 1⟩, ⟨5, "Bob".toList, "Burn".toList, 3⟩] := by
  have h := claim_C2_parse_skip.1 ["5,Bob,Burn,3".toList, "junk".toList, "2,A,x,1".toList]
    (by decide) (by decide)
  rw [h]
  decide

/-- C2 counterexample: a line with four fields but a non-numeric id
aborts the whole case-log load (the earlier well-formed line is lost),
and a feed line with a non-numeric id likewise aborts the intake import —
the claimed skip-and-continue does not happen for non-numeric fields. -/
theorem claim_C2_counterexample :
    loadExistingEmergencies (some ["12,Bob,Burn,3".toList, "abc,Ann,Cut,2".toList]) =
      .error () ∧
    loadPatientsFromFile ⟨[], none⟩ (some ["xy,Ann,Flu".toList]) = .error () := by
  refine ⟨by decide, by decide⟩

/-! ## Claim C9: processing drains the store front-first -/

theorem process_of_nil (st : EDState) (h : st.cases = []) :
    processCriticalCase st = (st, none) := by
  unfold processCriticalCase
  rw [h]

theorem process_of_cons (st : EDState) (c : EmergencyCase) (rest : List EmergencyCase)
    (h : st.cases = c :: rest) :
    processCriticalCase st = ({ st with cases := rest }, some c) := by
  unfold processCriticalCase
  rw [h]

theorem process_tail (st : EDState) :
    (processCriticalCase st).1.cases = st.cases.tail ∧
    (processCriticalCase st).1.logFile = st.logFile := by
  rcases hc : st.cases with _ | ⟨c, rest⟩
  · rw [process_of_nil st hc, hc]
    exact ⟨rfl, rfl⟩
  · rw [process_of_cons st c rest hc]
    simp [hc]

theorem procIter_cases (st : EDState) :
    ∀ n, (procIter n st).cases = st.cases.drop n ∧ (procIter n st).logFile = st.logFile := by
  intro n
  induction n with
  | zero => exact ⟨rfl, rfl⟩
  | succ n ih =>
      have hstep : procIter (n + 1) st = (processCriticalCase (procIter n st)).1 := by
        unfold procIter
        rw [Function.iterate_succ_apply']
      rw [hstep]
      obtain ⟨h1, h2⟩ := process_tail (procIter n st)
      rw [h1, h2, ih.1, ih.2, List.tail_drop]
      exact ⟨rfl, rfl⟩

/-- C9: on a store of `n` cases (sorted, as every reachable store is),
`processCriticalCase` called `n` times drains the store to empty; each
call removes the front case and returns it, and that case's priority is
minimal among the cases remaining at that call; the `(n+1)`-th call
reports that there is nothing to process (`none`) and changes nothing. -/
theorem claim_C9_process_drains (st : EDState) (h : PrioritySorted st.cases) :
    (procIter st.cases.length st).cases = [] ∧
    processCriticalCase (procIter st.cases.length st) =
      (procIter st.cases.length st, none) ∧
    (∀ k, k < st.cases.length →
      ∃ c, (processCriticalCase (procIter k st)).2 = some c ∧
        (processCriticalCase (procIter k st)).1.cases = (procIter k st).cases.tail ∧
        ∀ x ∈ (procIter k st).cases, c.priority ≤ x.priority) := by
  have hnil : (procIter st.cases.length st).cases = [] := by
    rw [(procIter_cases st st.cases.length).1, List.drop_length]
  refine ⟨hnil, process_of_nil _ hnil, ?_⟩
  intro k hk
  have hdrop : (procIter k st).cases = st.cases.drop k := (procIter_cases st k).1
  have hne : (procIter k st).cases ≠ [] := by
    rw [hdrop]
    intro hcon
    have := congrArg List.length hcon
    simp at this
    omega
  obtain ⟨c, rest, hcr⟩ := List.exists_cons_of_ne_nil hne
  have hsorted : PrioritySorted ((procIter k st).cases) := by
    rw [hdrop]
    exact List.Pairwise.sublist (List.drop_sublist k st.cases) h
  refine ⟨c, ?_, (process_tail _).1, ?_⟩
  · rw [process_of_cons _ c rest hcr]
  · intro x hx
    rw [hcr] at hsorted hx
    rcases List.mem_cons.mp hx with hx | hx
    · rw [hx]
    · exact (List.pairwise_cons.mp hsorted).1 x hx

/-- C9 witness: a two-case sorted store is drained by two calls, and the
first call returns the priority-1 case. -/
theorem claim_C9_process_drains_witness :
    (procIter 2 ⟨[⟨1, "A".toList, "x".toList, 1⟩, ⟨2, "B".toList, "y".toList, 5⟩],
      none⟩).cases = [] ∧
    (processCriticalCase (procIter 0 ⟨[⟨1, "A".toList, "x".toList, 1⟩,
      ⟨2, "B".toList, "y".toList, 5⟩], none⟩)).2 = some ⟨1, "A".toList, "x".toList, 1⟩ := by
  constructor
  · exact (claim_C9_process_drains ⟨[⟨1, "A".toList, "x".toList, 1⟩,
      ⟨2, "B".toList, "y".toList, 5⟩], none⟩ (by decide)).1
  · decide

/-! ## Invariants over all reachable states -/

theorem foldlM_invariant {α σ : Type} (f : σ → α → Except Unit σ) (P : σ → Prop)
    (hf : ∀ s a s2, f s a = .ok s2 → P s → P s2) :
    ∀ (l : List α) (s s2 : σ), l.foldlM f s = .ok s2 → P s → P s2 := by
  intro l
  induction l with
  | nil =>
      intro s s2 h hP
      simp only [List.foldlM_nil] at h
      cases h
      exact hP
  | cons a as ih =>
      intro s s2 h hP
      rcases hf1 : f s a with e | s1
      · rw [show (a :: as).foldlM f s = f s a >>= fun x => as.foldlM f x from rfl, hf1] at h
        cases h
      · rw [show (a :: as).foldlM f s = f s a >>= fun x => as.foldlM f x from rfl, hf1] at h
        exact ih s1 s2 h (hf s a s1 hf1 hP)

theorem loadStep_length (s : List EmergencyCase) (l : Str) (s2 : List EmergencyCase)
    (h : loadStep s l = .ok s2) (hP : s.length ≤ 100) : s2.length ≤ 100 := by
  unfold loadStep at h
  rcases hp : parseLogLine l with e | oc
  · rw [hp] at h
    cases h
  · rw [hp] at h
    rcases oc with _ | c
    · cases h
      exact hP
    · cases h
      by_cases hlt : s.length < 100
      · rw [if_pos hlt]
        simp
        omega
      · rw [if_neg hlt]
        exact hP

theorem loadExisting_facts (ef : Option FileLines) (cs : List EmergencyCase)
    (h : loadExistingEmergencies ef = .ok cs) :
    PrioritySorted cs ∧ cs.length ≤ 100 := by
  rcases ef with _ | lines
  · unfold loadExistingEmergencies at h
    cases h
    exact ⟨List.Pairwise.nil, by simp⟩
  · unfold loadExistingEmergencies at h
    rcases hfold : lines.foldlM loadStep [] with e | res
    · rw [show (some lines : Option FileLines) = some lines from rfl] at h
      simp only [hfold] at h
      cases h
    · simp only [hfold] at h
      have hres : cs = sortCases res := by
        cases h
        rfl
      subst hres
      refine ⟨sortCases_sorted res, ?_⟩
      rw [sortCases_length]
      exact foldlM_invariant loadStep (fun s => s.length ≤ 100) loadStep_length
        lines [] res hfold (by simp)

theorem patientStep_eq_of_fields (a : PatAcc) (l : Str) (f1 f2 f3 : Str) (rest : List Str)
    (hsp : splitFieldsCh l = f1 :: f2 :: f3 :: rest) :
    patientStep a l =
      (match stoiOpt f1 with
       | none => Except.error ()
       | some pid =>
         if pid ∈ a.2.1 then Except.ok a
         else if a.1.cases.length < 100 then
           Except.ok (⟨a.1.cases ++ [⟨pid, f2, f3, 6⟩],
             appendCaseLine a.1.logFile ⟨pid, f2, f3, 6⟩⟩, pid :: a.2.1, a.2.2 + 1)
         else Except.ok a) := by
  unfold patientStep
  rw [hsp]

theorem patientStep_eq_none (a : PatAcc) (l : Str) (f1 f2 f3 : Str) (rest : List Str)
    (hsp : splitFieldsCh l = f1 :: f2 :: f3 :: rest) (hio : stoiOpt f1 = none) :
    patientStep a l = .error () := by
  rw [patientStep_eq_of_fields a l f1 f2 f3 rest hsp, hio]

theorem patientStep_eq_some (a : PatAcc) (l : Str) (f1 f2 f3 : Str) (rest : List Str)
    (pid : Int) (hsp : splitFieldsCh l = f1 :: f2 :: f3 :: rest)
    (hio : stoiOpt f1 = some pid) :
    patientStep a l =
      (if pid ∈ a.2.1 then Except.ok a
       else if a.1.cases.length < 100 then
         Except.ok (⟨a.1.cases ++ [⟨pid, f2, f3, 6⟩],
           appendCaseLine a.1.logFile ⟨pid, f2, f3, 6⟩⟩, pid :: a.2.1, a.2.2 + 1)
       else Except.ok a) := by
  rw [patientStep_eq_of_fields a l f1 f2 f3 rest hsp, hio]

theorem patientStep_skip (a : PatAcc) (l : Str) (h : (splitFieldsCh l).length < 3) :
    patientStep a l = .ok a := by
  unfold patientStep
  rcases hsp : splitFieldsCh l with _ | ⟨f1, _ | ⟨f2, _ | ⟨f3, rest⟩⟩⟩
  · rfl
  · rfl
  · rfl
  · rw [hsp] at h
    simp at h
    omega

theorem patientStep_inv (a : PatAcc) (l : Str) (a2 : PatAcc)
    (h : patientStep a l = .ok a2)
    (hP : a.1.cases.length ≤ 100) : a2.1.cases.length ≤ 100 := by
  rcases hsp : splitFieldsCh l with _ | ⟨f1, _ | ⟨f2, _ | ⟨f3, rest⟩⟩⟩
  · rw [patientStep_skip a l (by rw [hsp]; simp)] at h
    cases h
    exact hP
  · rw [patientStep_skip a l (by rw [hsp]; simp)] at h
    cases h
    exact hP
  · rw [patientStep_skip a l (by rw [hsp]; simp)] at h
    cases h
    exact hP
  · rcases hio : stoiOpt f1 with _ | pid
    · rw [patientStep_eq_none a l f1 f2 f3 rest hsp hio] at h
      exact Except.noConfusion h
    · rw [patientStep_eq_some a l f1 f2 f3 rest pid hsp hio] at h
      by_cases hmem : pid ∈ a.2.1
      · rw [if_pos hmem] at h
        cases h
        exact hP
      · rw [if_neg hmem] at h
        by_cases hlt : a.1.cases.length < 100
        · rw [if_pos hlt] at h
          cases h
          simp
          omega
        · rw [if_neg hlt] at h
          cases h
          exact hP

theorem loadPatients_some_eq (st : EDState) (lines : FileLines) :
    loadPatientsFromFile st (some lines) =
      (match lines.foldlM patientStep (st, st.cases.map (·.patientID), 0) with
       | .error e => .error e
       | .ok a => .ok ({ a.1 with cases := sortCases a.1.cases }, a.2.2)) := by
  unfold loadPatientsFromFile
  rfl

theorem loadPatients_facts (st : EDState) (pf : Option FileLines) (st' : EDState) (n : Nat)
    (h : loadPatientsFromFile st pf = .ok (st', n)) :
    (PrioritySorted st.cases → PrioritySorted st'.cases) ∧
    (st.cases.length ≤ 100 → st'.cases.length ≤ 100) := by
  rcases pf with _ | lines
  · unfold loadPatientsFromFile at h
    cases h
    exact ⟨id, id⟩
  · rw [loadPatients_some_eq] at h
    rcases hfold : lines.foldlM patientStep (st, st.cases.map (·.patientID), 0) with e | a <;>
      rw [hfold] at h
    · exact Except.noConfusion h
    · cases h
      constructor
      · intro _
        exact sortCases_sorted _
      · intro hlen
        show (sortCases a.1.cases).length ≤ 100
        rw [sortCases_length]
        exact foldlM_invariant patientStep (fun x => x.1.cases.length ≤ 100) patientStep_inv
          lines (st, st.cases.map (·.patientID), 0) a hfold hlen

theorem logCase_sorted (st : EDState) (nameIn ctIn : Str) (toks : List InTok)
    (hs : PrioritySorted st.cases) :
    PrioritySorted (logEmergencyCase st nameIn ctIn toks).1.cases := by
  unfold logEmergencyCase
  split
  · exact hs
  · split
    · exact hs
    · split
      · exact hs
      · split
        · split
          · exact hs
          · exact insertCase_sorted _ _ hs
        · exact insertCase_sorted _ _ hs

theorem logCase_length (st : EDState) (nameIn ctIn : Str) (toks : List InTok)
    (hlen : st.cases.length ≤ 100) :
    (logEmergencyCase st nameIn ctIn toks).1.cases.length ≤ 100 := by
  unfold logEmergencyCase
  split
  · exact hlen
  · rename_i hcap
    split
    · exact hlen
    · split
      · exact hlen
      · split
        · split
          · exact hlen
          · simp only [insertCase_length]
            omega
        · simp only [insertCase_length]
          omega

theorem updatePriority_sorted (st : EDState) (toks : List InTok) (nameIn : Str)
    (hs : PrioritySorted st.cases) :
    PrioritySorted (updatePriorityInteractive st toks nameIn).cases := by
  unfold updatePriorityInteractive
  split
  · exact hs
  · split
    · exact hs
    · split
      · split
        · exact hs
        · split
          · exact hs
          · exact sortCases_sorted _
      · split
        · exact hs
        · split
          · exact hs
          · exact sortCases_sorted _

theorem updatePriority_length (st : EDState) (toks : List InTok) (nameIn : Str)
    (hlen : st.cases.length ≤ 100) :
    (updatePriorityInteractive st toks nameIn).cases.length ≤ 100 := by
  unfold updatePriorityInteractive
  split
  · exact hlen
  · split
    · exact hlen
    · split
      · split
        · exact hlen
        · split
          · exact hlen
          · simp only [sortCases_length, setPriorityAt_length]
            exact hlen
      · split
        · exact hlen
        · split
          · exact hlen
          · simp only [sortCases_length, setPriorityAt_length]
            exact hlen

theorem initDepartment_err_eq (ef pf : Option FileLines) (e : Unit)
    (hle : loadExistingEmergencies ef = .error e) : initDepartment ef pf = .error e := by
  unfold initDepartment
  rw [hle]

theorem initDepartment_ok_eq (ef pf : Option FileLines) (cs : List EmergencyCase)
    (hle : loadExistingEmergencies ef = .ok cs) :
    initDepartment ef pf =
      (match loadPatientsFromFile ⟨cs, ef⟩ pf with
       | .error e => .error e
       | .ok r => .ok r.1) := by
  unfold initDepartment
  rw [hle]

theorem initDepartment_facts (ef pf : Option FileLines) (st : EDState)
    (h : initDepartment ef pf = .ok st) :
    PrioritySorted st.cases ∧ st.cases.length ≤ 100 := by
  rcases hle : loadExistingEmergencies ef with e | cs
  · rw [initDepartment_err_eq ef pf e hle] at h
    exact Except.noConfusion h
  · rw [initDepartment_ok_eq ef pf cs hle] at h
    rcases hlp : loadPatientsFromFile ⟨cs, ef⟩ pf with e | r <;> rw [hlp] at h
    · exact Except.noConfusion h
    · cases h
      obtain ⟨hs0, hl0⟩ := loadExisting_facts ef cs hle
      obtain ⟨hs1, hl1⟩ := loadPatients_facts ⟨cs, ef⟩ pf r.1 r.2 (by rw [hlp])
      exact ⟨hs1 hs0, hl1 hl0⟩

/-! ## Claim C4: the store is always sorted ascending by priority -/

/-- C4: invariant I1 — in every reachable store state (after startup
loading and after any sequence of logging, importing, processing and
priority-update operations) every adjacent pair of stored cases has
non-decreasing priority. -/
theorem claim_C4_always_sorted (st : EDState) (h : Reachable st) :
    PrioritySorted st.cases := by
  induction h with
  | init ef pf st hinit => exact (initDepartment_facts ef pf st hinit).1
  | log st nameIn ctIn toks _ ih => exact logCase_sorted st nameIn ctIn toks ih
  | imp st pf st' n _ hlp ih => exact (loadPatients_facts st pf st' n hlp).1 ih
  | process st _ ih =>
      rw [(process_tail st).1]
      exact List.Pairwise.sublist (List.tail_sublist st.cases) ih
  | update st toks nameIn _ ih => exact updatePriority_sorted st toks nameIn ih

/-- C4 witness: starting from a log whose lines are out of order, the
loaded state is reachable and its store is sorted. -/
theorem claim_C4_always_sorted_witness :
    PrioritySorted (⟨[⟨1, "A".toList, "x".toList, 1⟩, ⟨2, "B".toList, "y".toList, 5⟩],
      some ["2,B,y,5".toList, "1,A,x,1".toList]⟩ : EDState).cases :=
  claim_C4_always_sorted _
    (Reachable.init (some ["2,B,y,5".toList, "1,A,x,1".toList]) none _ (by decide))

/-! ## Claim C7: the capacity bound -/

/-- C7 (amended): every reachable store holds at most 100 cases, and
`logEmergencyCase` on a store at capacity reports the capacity error and
leaves the store unchanged.  (The startup loaders, however, drop cases
beyond capacity silently — see the counterexample.) -/
theorem claim_C7_capacity (st : EDState) (nameIn ctIn : Str) (toks : List InTok) :
    (Reachable st → st.cases.length ≤ 100) ∧
    (st.cases.length ≥ 100 → logEmergencyCase st nameIn ctIn toks = (st, .capacityError)) := by
  constructor
  · intro h
    induction h with
    | init ef pf s hinit => exact (initDepartment_facts ef pf s hinit).2
    | log s nm ct tk _ ih => exact logCase_length s nm ct tk ih
    | imp s pf s2 n _ hlp ih => exact (loadPatients_facts s pf s2 n hlp).2 ih
    | process s _ ih =>
        rw [(process_tail s).1, List.length_tail]
        omega
    | update s tk nm _ ih => exact updatePriority_length s tk nm ih
  · intro hge
    unfold logEmergencyCase
    rw [if_pos hge]

/-- C7 witness: the empty startup state is reachable and within capacity,
and on a concrete 100-case store `logEmergencyCase` reports the capacity
error with the store unchanged. -/
theorem claim_C7_capacity_witness :
    (⟨[], none⟩ : EDState).cases.length ≤ 100 ∧
    logEmergencyCase ⟨List.replicate 100 ⟨1, "P".toList, "q".toList, 6⟩, none⟩
        "Zed".toList [] [InTok.num 1] =
      (⟨List.replicate 100 ⟨1, "P".toList, "q".toList, 6⟩, none⟩, .capacityError) :=
  ⟨(claim_C7_capacity ⟨[], none⟩ "Zed".toList [] []).1
      (Reachable.init none none _ (by decide)),
   (claim_C7_capacity ⟨List.replicate 100 ⟨1, "P".toList, "q".toList, 6⟩, none⟩
      "Zed".toList [] [InTok.num 1]).2 (by simp)⟩

set_option maxHeartbeats 1000000 in
/-- C7 counterexample: with the store at its capacity of 100, an intake
feed line carrying a fresh id parses fine and is not a duplicate, yet
the import drops it with no capacity report of any kind: the run is
indistinguishable from importing an already-present patient (`.ok` with
0 new cases, store unchanged) — the insertion attempt is silently
dropped, not "rejected with a report". -/
theorem claim_C7_counterexample :
    splitFieldsCh "200,Zed,Flu".toList = ["200".toList, "Zed".toList, "Flu".toList] ∧
    stoiOpt "200".toList = some 200 ∧
    (200 : Int) ∉ (List.replicate 100
      (⟨1, "P".toList, "q".toList, 6⟩ : EmergencyCase)).map (fun c => c.patientID) ∧
    loadPatientsFromFile ⟨List.replicate 100 ⟨1, "P".toList, "q".toList, 6⟩, none⟩
        (some ["200,Zed,Flu".toList]) =
      .ok (⟨List.replicate 100 ⟨1, "P".toList, "q".toList, 6⟩, none⟩, 0) := by
  refine ⟨by decide, by decide, by decide, by decide⟩

/-! ## Claim C8: the intake import is idempotent -/

theorem foldlM_cons_eq {α σ : Type} (f : σ → α → Except Unit σ) (a : α) (as : List α) (s : σ) :
    (a :: as).foldlM f s = f s a >>= fun x => as.foldlM f x := rfl

theorem patientStep_outcomes (a : PatAcc) (l : Str) (a2 : PatAcc)
    (h : patientStep a l = .ok a2) :
    a2 = a ∨
    (∃ f1 f2 f3 rest pid,
      splitFieldsCh l = f1 :: f2 :: f3 :: rest ∧ stoiOpt f1 = some pid ∧
      pid ∉ a.2.1 ∧ a.1.cases.length < 100 ∧
      a2 = (⟨a.1.cases ++ [⟨pid, f2, f3, 6⟩],
        appendCaseLine a.1.logFile ⟨pid, f2, f3, 6⟩⟩, pid :: a.2.1, a.2.2 + 1)) := by
  rcases hsp : splitFieldsCh l with _ | ⟨f1, _ | ⟨f2, _ | ⟨f3, rest⟩⟩⟩
  · rw [patientStep_skip a l (by rw [hsp]; simp)] at h
    cases h
    exact Or.inl rfl
  · rw [patientStep_skip a l (by rw [hsp]; simp)] at h
    cases h
    exact Or.inl rfl
  · rw [patientStep_skip a l (by rw [hsp]; simp)] at h
    cases h
    exact Or.inl rfl
  · rcases hio : stoiOpt f1 with _ | pid
    · rw [patientStep_eq_none a l f1 f2 f3 rest hsp hio] at h
      exact Except.noConfusion h
    · rw [patientStep_eq_some a l f1 f2 f3 rest pid hsp hio] at h
      by_cases hmem : pid ∈ a.2.1
      · rw [if_pos hmem] at h
        cases h
        exact Or.inl rfl
      · rw [if_neg hmem] at h
        by_cases hlt : a.1.cases.length < 100
        · rw [if_pos hlt] at h
          cases h
          exact Or.inr ⟨f1, f2, f3, rest, pid, rfl, hio, hmem, hlt, rfl⟩
        · rw [if_neg hlt] at h
          cases h
          exact Or.inl rfl

theorem patientsFold_handled (lines : FileLines) :
    ∀ a b : PatAcc, lines.foldlM patientStep a = .ok b →
      (∀ x ∈ a.2.1, x ∈ b.2.1) ∧ a.1.cases.length ≤ b.1.cases.length ∧
      (∀ l ∈ lines, ∀ f1 f2 f3 rest pid,
        splitFieldsCh l = f1 :: f2 :: f3 :: rest → stoiOpt f1 = some pid →
        pid ∈ b.2.1 ∨ 100 ≤ b.1.cases.length) := by
  induction lines with
  | nil =>
      intro a b h
      simp only [List.foldlM_nil] at h
      cases h
      exact ⟨fun x hx => hx, le_refl _, by simp⟩
  | cons l ls ih =>
      intro a b h
      rw [foldlM_cons_eq] at h
      rcases hstep : patientStep a l with e | a1 <;> rw [hstep] at h
      · exact Except.noConfusion h
      · have h2 : ls.foldlM patientStep a1 = .ok b := h
        obtain ⟨hsub, hlen, hall⟩ := ih a1 b h2
        have hstepfacts : (∀ x ∈ a.2.1, x ∈ a1.2.1) ∧ a.1.cases.length ≤ a1.1.cases.length := by
          rcases patientStep_outcomes a l a1 hstep with heq | ⟨f1, f2, f3, rest, pid,
              _, _, _, _, heq⟩
          · rw [heq]
            exact ⟨fun x hx => hx, le_refl _⟩
          · rw [heq]
            exact ⟨fun x hx => by simp [hx], by simp⟩
        refine ⟨fun x hx => hsub x (hstepfacts.1 x hx), le_trans hstepfacts.2 hlen, ?_⟩
        intro l2 hl2 f1 f2 f3 rest pid hsp hio
        rcases List.mem_cons.mp hl2 with hl2 | hl2
        · subst hl2
          rw [patientStep_eq_some a l2 f1 f2 f3 rest pid hsp hio] at hstep
          by_cases hmem : pid ∈ a.2.1
          · rw [if_pos hmem] at hstep
            cases hstep
            exact Or.inl (hsub pid (hstepfacts.1 pid hmem))
          · rw [if_neg hmem] at hstep
            by_cases hlt : a.1.cases.length < 100
            · rw [if_pos hlt] at hstep
              cases hstep
              exact Or.inl (hsub pid (by simp))
            · rw [if_neg hlt] at hstep
              cases hstep
              exact Or.inr (by omega)
        · exact hall l2 hl2 f1 f2 f3 rest pid hsp hio

theorem patientsFold_no_error (lines : FileLines) :
    ∀ a b : PatAcc, lines.foldlM patientStep a = .ok b →
      ∀ l ∈ lines, ∀ f1 f2 f3 rest,
        splitFieldsCh l = f1 :: f2 :: f3 :: rest → stoiOpt f1 ≠ none := by
  induction lines with
  | nil => intro a b _ l hl; simp at hl
  | cons l ls ih =>
      intro a b h l2 hl2 f1 f2 f3 rest hsp
      rw [foldlM_cons_eq] at h
      rcases hstep : patientStep a l with e | a1 <;> rw [hstep] at h
      · exact Except.noConfusion h
      · rcases List.mem_cons.mp hl2 with hl2 | hl2
        · subst hl2
          intro hio
          rw [patientStep_eq_none a l2 f1 f2 f3 rest hsp hio] at hstep
          exact Except.noConfusion hstep
        · exact ih a1 b h l2 hl2 f1 f2 f3 rest hsp

theorem patientsFold_stable (lines : FileLines) :
    ∀ a : PatAcc,
      (∀ l ∈ lines, ∀ f1 f2 f3 rest pid,
        splitFieldsCh l = f1 :: f2 :: f3 :: rest → stoiOpt f1 = some pid →
        pid ∈ a.2.1 ∨ 100 ≤ a.1.cases.length) →
      (∀ l ∈ lines, ∀ f1 f2 f3 rest,
        splitFieldsCh l = f1 :: f2 :: f3 :: rest → stoiOpt f1 ≠ none) →
      lines.foldlM patientStep a = .ok a := by
  induction lines with
  | nil => intro a _ _; rfl
  | cons l ls ih =>
      intro a hhandled hnoerr
      have hstep : patientStep a l = .ok a := by
        rcases hsp : splitFieldsCh l with _ | ⟨f1, _ | ⟨f2, _ | ⟨f3, rest⟩⟩⟩
        · exact patientStep_skip a l (by rw [hsp]; simp)
        · exact patientStep_skip a l (by rw [hsp]; simp)
        · exact patientStep_skip a l (by rw [hsp]; simp)
        · rcases hio : stoiOpt f1 with _ | pid
          · exact absurd hio (hnoerr l (by simp) f1 f2 f3 rest hsp)
          · rw [patientStep_eq_some a l f1 f2 f3 rest pid hsp hio]
            by_cases hmem : pid ∈ a.2.1
            · rw [if_pos hmem]
            · rcases hhandled l (by simp) f1 f2 f3 rest pid hsp hio with h1 | h1
              · exact absurd h1 hmem
              · rw [if_neg hmem, if_neg (by omega)]
      rw [foldlM_cons_eq, hstep]
      show ls.foldlM patientStep a = .ok a
      exact ih a (fun l2 hl2 => hhandled l2 (by simp [hl2]))
        (fun l2 hl2 => hnoerr l2 (by simp [hl2]))

theorem patientStep_syncP (a : PatAcc) (l : Str) (a2 : PatAcc)
    (h : patientStep a l = .ok a2)
    (hP : ∀ x, x ∈ a.2.1 ↔ x ∈ a.1.cases.map (fun c => c.patientID)) :
    ∀ x, x ∈ a2.2.1 ↔ x ∈ a2.1.cases.map (fun c => c.patientID) := by
  rcases patientStep_outcomes a l a2 h with heq | ⟨f1, f2, f3, rest, pid, _, _, hmem, _, heq⟩
  · rw [heq]
    exact hP
  · rw [heq]
    intro x
    simp only [List.map_append, List.map_cons, List.map_nil, List.mem_append,
      List.mem_cons, List.mem_singleton, List.not_mem_nil]
    rw [← hP x]
    constructor
    · intro hx
      rcases hx with hx | hx
      · right; left; exact hx
      · left; exact hx
    · intro hx
      rcases hx with hx | hx | hx
      · right; exact hx
      · left; exact hx
      · exact absurd hx (by simp)

theorem patientStep_nodupP (a : PatAcc) (l : Str) (a2 : PatAcc)
    (h : patientStep a l = .ok a2)
    (hP : (∀ x, x ∈ a.2.1 ↔ x ∈ a.1.cases.map (fun c => c.patientID)) ∧
      (a.1.cases.map (fun c => c.patientID)).Nodup) :
    (∀ x, x ∈ a2.2.1 ↔ x ∈ a2.1.cases.map (fun c => c.patientID)) ∧
      (a2.1.cases.map (fun c => c.patientID)).Nodup := by
  refine ⟨patientStep_syncP a l a2 h hP.1, ?_⟩
  rcases patientStep_outcomes a l a2 h with heq | ⟨f1, f2, f3, rest, pid, _, _, hmem, _, heq⟩
  · rw [heq]
    exact hP.2
  · rw [heq]
    have hpid : pid ∉ a.1.cases.map (fun c => c.patientID) := fun hx => hmem ((hP.1 pid).mpr hx)
    simp only [List.map_append, List.map_cons, List.map_nil]
    rw [List.nodup_append]
    refine ⟨hP.2, List.nodup_singleton pid, ?_⟩
    intro x hx
    simp only [List.mem_cons, List.not_mem_nil, List.mem_singleton]
    intro hcon
    rcases hcon with hcon | hcon
    · rw [hcon] at hx
      exact hpid hx
    · exact hcon

/-- C8: the intake import is idempotent and dedups by id — running
`loadPatientsFromFile` a second time on the same feed imports 0 new cases
and leaves the state exactly as it was; a feed line whose id already
exists in the store adds nothing (the store is merely re-sorted, its size
unchanged); and the import never introduces duplicate ids (so a second
occurrence of an id later in the same feed is rejected too). -/
theorem claim_C8_import_idempotent :
    (∀ (st : EDState) (pf : Option FileLines) (st' : EDState) (n : Nat),
      loadPatientsFromFile st pf = .ok (st', n) →
      loadPatientsFromFile st' pf = .ok (st', 0)) ∧
    (∀ (st : EDState) (l : Str) (f1 f2 f3 : Str) (rest : List Str) (pid : Int),
      splitFieldsCh l = f1 :: f2 :: f3 :: rest → stoiOpt f1 = some pid →
      pid ∈ st.cases.map (fun c => c.patientID) →
      loadPatientsFromFile st (some [l]) = .ok ({ st with cases := sortCases st.cases }, 0) ∧
      (sortCases st.cases).length = st.cases.length) ∧
    (∀ (st : EDState) (pf : Option FileLines) (st' : EDState) (n : Nat),
      loadPatientsFromFile st pf = .ok (st', n) →
      (st.cases.map (fun c => c.patientID)).Nodup →
      (st'.cases.map (fun c => c.patientID)).Nodup) := by
  refine ⟨?_, ?_, ?_⟩
  · intro st pf st' n h
    rcases pf with _ | lines
    · unfold loadPatientsFromFile at h
      cases h
      rfl
    · rw [loadPatients_some_eq] at h
      rcases hfold : lines.foldlM patientStep (st, st.cases.map (·.patientID), 0)
        with e | a <;> rw [hfold] at h
      · exact Except.noConfusion h
      · cases h
        rw [loadPatients_some_eq]
        have hhandled0 := patientsFold_handled lines (st, st.cases.map (·.patientID), 0) a hfold
        have hnoerr := patientsFold_no_error lines (st, st.cases.map (·.patientID), 0) a hfold
        have hsynca : ∀ x, x ∈ a.2.1 ↔ x ∈ a.1.cases.map (fun c => c.patientID) :=
          foldlM_invariant patientStep
            (fun y => ∀ x, x ∈ y.2.1 ↔ x ∈ y.1.cases.map (fun c => c.patientID))
            patientStep_syncP lines _ a hfold (fun x => Iff.rfl)
        have hstable := patientsFold_stable lines
          (({ a.1 with cases := sortCases a.1.cases } : EDState),
            ({ a.1 with cases := sortCases a.1.cases } : EDState).cases.map (·.patientID), 0)
          ?hh ?hn
        case hh =>
          intro l hl f1 f2 f3 rest pid hsp hio
          rcases hhandled0.2.2 l hl f1 f2 f3 rest pid hsp hio with hmem | hcap
          · left
            have hx : pid ∈ a.1.cases.map (fun c => c.patientID) := (hsynca pid).mp hmem
            show pid ∈ (sortCases a.1.cases).map (fun c => c.patientID)
            exact (((sortCases_perm a.1.cases).map (fun c => c.patientID)).mem_iff).mpr hx
          · right
            show 100 ≤ (sortCases a.1.cases).length
            rw [sortCases_length]
            exact hcap
        case hn => exact hnoerr
        rw [hstable]
        have hsorted : PrioritySorted (sortCases a.1.cases) := sortCases_sorted _
        show Except.ok (({ cases := sortCases (sortCases a.1.cases), logFile := a.1.logFile } : EDState), (0 : Nat)) =
          Except.ok (({ a.1 with cases := sortCases a.1.cases } : EDState), (0 : Nat))
        rw [sortCases_of_sorted _ hsorted]
  · intro st l f1 f2 f3 rest pid hsp hio hmem
    refine ⟨?_, sortCases_length st.cases⟩
    rw [loadPatients_some_eq]
    have hstep0 : patientStep (st, st.cases.map (·.patientID), 0) l =
        .ok (st, st.cases.map (·.patientID), 0) := by
      rw [patientStep_eq_some (st, st.cases.map (·.patientID), 0) l f1 f2 f3 rest pid hsp hio]
      exact if_pos hmem
    rw [foldlM_cons_eq, hstep0]
    rfl
  · intro st pf st' n h hnd
    rcases pf with _ | lines
    · unfold loadPatientsFromFile at h
      cases h
      exact hnd
    · rw [loadPatients_some_eq] at h
      rcases hfold : lines.foldlM patientStep (st, st.cases.map (·.patientID), 0)
        with e | a <;> rw [hfold] at h
      · exact Except.noConfusion h
      · cases h
        have hinv := foldlM_invariant patientStep
          (fun y => (∀ x, x ∈ y.2.1 ↔ x ∈ y.1.cases.map (fun c => c.patientID)) ∧
            (y.1.cases.map (fun c => c.patientID)).Nodup)
          patientStep_nodupP lines _ a hfold ⟨fun x => Iff.rfl, hnd⟩
        show ((sortCases a.1.cases).map (fun c => c.patientID)).Nodup
        exact (((sortCases_perm a.1.cases).map (fun c => c.patientID)).nodup_iff).mpr hinv.2

/-- C8 witness: importing the one-line feed "7,Ann,Flu" into an empty
department creates one case; running the same import again on the
resulting state imports 0 and leaves it untouched. -/
theorem claim_C8_import_idempotent_witness :
    loadPatientsFromFile
        ⟨[⟨7, "Ann".toList, "Flu".toList, 6⟩], some ["7,Ann,Flu,6".toList]⟩
        (some ["7,Ann,Flu".toList]) =
      .ok (⟨[⟨7, "Ann".toList, "Flu".toList, 6⟩], some ["7,Ann,Flu,6".toList]⟩, 0) :=
  claim_C8_import_idempotent.1 ⟨[], none⟩ (some ["7,Ann,Flu".toList])
    ⟨[⟨7, "Ann".toList, "Flu".toList, 6⟩], some ["7,Ann,Flu,6".toList]⟩ 1 (by decide)

/-! ## Claim C6: uniqueness of assigned ids -/

theorem fileIds_appendCase (f : Option FileLines) (c : EmergencyCase) :
    fileIds ((appendCaseLine f c).getD []) = fileIds (f.getD []) ++ [c.patientID] := by
  unfold appendCaseLine
  rw [Option.getD_some]
  exact fileIds_append (f.getD []) c

theorem logCase_session (st : EDState) (nameIn ctIn : Str) (toks : List InTok) :
    ((logEmergencyCase st nameIn ctIn toks).1 = st ∧
      ∀ c, (logEmergencyCase st nameIn ctIn toks).2 ≠ LogCaseResult.logged c) ∨
    (∃ c, (logEmergencyCase st nameIn ctIn toks).2 = LogCaseResult.logged c ∧
      c.patientID = generateNextID st.logFile ∧
      (logEmergencyCase st nameIn ctIn toks).1 =
        ⟨insertCase c st.cases, appendCaseLine st.logFile c⟩) := by
  unfold logEmergencyCase
  split
  · exact Or.inl ⟨rfl, by simp⟩
  · split
    · exact Or.inl ⟨rfl, by simp⟩
    · split
      · exact Or.inl ⟨rfl, by simp⟩
      · split
        · split
          · exact Or.inl ⟨rfl, by simp⟩
          · exact Or.inr ⟨_, rfl, rfl, rfl⟩
        · exact Or.inr ⟨_, rfl, rfl, rfl⟩

theorem updatePriority_state (st : EDState) (toks : List InTok) (nameIn : Str) :
    (updatePriorityInteractive st toks nameIn).logFile = st.logFile ∧
    ((updatePriorityInteractive st toks nameIn).cases.map (fun c => c.patientID)).Perm
      (st.cases.map (fun c => c.patientID)) := by
  unfold updatePriorityInteractive
  split
  · exact ⟨rfl, List.Perm.refl _⟩
  · split
    · exact ⟨rfl, List.Perm.refl _⟩
    · split
      · split
        · exact ⟨rfl, List.Perm.refl _⟩
        · split
          · exact ⟨rfl, List.Perm.refl _⟩
          · refine ⟨rfl, ?_⟩
            show ((sortCases (setPriorityAt st.cases _ _)).map (fun c => c.patientID)).Perm _
            refine ((sortCases_perm _).map _).trans ?_
            rw [setPriorityAt_map_id]
      · split
        · exact ⟨rfl, List.Perm.refl _⟩
        · split
          · exact ⟨rfl, List.Perm.refl _⟩
          · refine ⟨rfl, ?_⟩
            show ((sortCases (setPriorityAt st.cases _ _)).map (fun c => c.patientID)).Perm _
            refine ((sortCases_perm _).map _).trans ?_
            rw [setPriorityAt_map_id]

theorem foldlM_chain {α σ : Type} (f : σ → α → Except Unit σ) (R : σ → σ → Prop)
    (hrefl : ∀ s, R s s) (htrans : ∀ a b c, R a b → R b c → R a c)
    (hstep : ∀ s a s2, f s a = .ok s2 → R s s2) :
    ∀ (l : List α) (s s2 : σ), l.foldlM f s = .ok s2 → R s s2 := by
  intro l
  induction l with
  | nil =>
      intro s s2 h
      simp only [List.foldlM_nil] at h
      cases h
      exact hrefl s
  | cons a as ih =>
      intro s s2 h
      rw [foldlM_cons_eq] at h
      rcases hf1 : f s a with e | s1 <;> rw [hf1] at h
      · exact Except.noConfusion h
      · exact htrans s s1 s2 (hstep s a s1 hf1) (ih s1 s2 h)

theorem patientStep_file_growth (a : PatAcc) (l : Str) (a2 : PatAcc)
    (h : patientStep a l = .ok a2) :
    ∀ x ∈ fileIds (a.1.logFile.getD []), x ∈ fileIds (a2.1.logFile.getD []) := by
  rcases patientStep_outcomes a l a2 h with heq | ⟨f1, f2, f3, rest, pid, _, _, _, _, heq⟩
  · rw [heq]
    exact fun x hx => hx
  · rw [heq]
    intro x hx
    show x ∈ fileIds ((appendCaseLine a.1.logFile _).getD [])
    rw [fileIds_appendCase]
    exact List.mem_append.mpr (Or.inl hx)

theorem patientStep_presP (a : PatAcc) (l : Str) (a2 : PatAcc)
    (h : patientStep a l = .ok a2)
    (hP : (∀ x, x ∈ a.2.1 ↔ x ∈ a.1.cases.map (fun c => c.patientID)) ∧
      (a.1.cases.map (fun c => c.patientID)).Nodup ∧
      (∀ x ∈ a.1.cases.map (fun c => c.patientID), x ∈ fileIds (a.1.logFile.getD []))) :
    (∀ x, x ∈ a2.2.1 ↔ x ∈ a2.1.cases.map (fun c => c.patientID)) ∧
      (a2.1.cases.map (fun c => c.patientID)).Nodup ∧
      (∀ x ∈ a2.1.cases.map (fun c => c.patientID), x ∈ fileIds (a2.1.logFile.getD [])) := by
  obtain ⟨hsync, hnd, hsub⟩ := hP
  obtain ⟨hsync2, hnd2⟩ := patientStep_nodupP a l a2 h ⟨hsync, hnd⟩
  refine ⟨hsync2, hnd2, ?_⟩
  rcases patientStep_outcomes a l a2 h with heq | ⟨f1, f2, f3, rest, pid, _, _, _, _, heq⟩
  · rw [heq]
    exact hsub
  · rw [heq]
    intro x hx
    show x ∈ fileIds ((appendCaseLine a.1.logFile _).getD [])
    rw [fileIds_appendCase]
    simp only [List.map_append, List.map_cons, List.map_nil, List.mem_append] at hx
    rcases hx with hx | hx
    · exact List.mem_append.mpr (Or.inl (hsub x hx))
    · simp only [List.mem_cons, List.not_mem_nil, or_false] at hx
      subst hx
      exact List.mem_append.mpr (Or.inr (by simp))

theorem loadPatients_session (st : EDState) (pf : Option FileLines) (st' : EDState) (n : Nat)
    (h : loadPatientsFromFile st pf = .ok (st', n)) :
    (∀ x ∈ fileIds (st.logFile.getD []), x ∈ fileIds (st'.logFile.getD [])) ∧
    (((st.cases.map (fun c => c.patientID)).Nodup ∧
        (∀ x ∈ st.cases.map (fun c => c.patientID), x ∈ fileIds (st.logFile.getD []))) →
      ((st'.cases.map (fun c => c.patientID)).Nodup ∧
        (∀ x ∈ st'.cases.map (fun c => c.patientID), x ∈ fileIds (st'.logFile.getD [])))) := by
  rcases pf with _ | lines
  · unfold loadPatientsFromFile at h
    cases h
    exact ⟨fun x hx => hx, id⟩
  · rw [loadPatients_some_eq] at h
    rcases hfold : lines.foldlM patientStep (st, st.cases.map (·.patientID), 0)
      with e | a <;> rw [hfold] at h
    · exact Except.noConfusion h
    · cases h
      constructor
      · intro x hx
        exact foldlM_chain patientStep
          (fun y z => ∀ x ∈ fileIds (y.1.logFile.getD []), x ∈ fileIds (z.1.logFile.getD []))
          (fun s x hx => hx) (fun p q r h1 h2 x hx => h2 x (h1 x hx))
          patientStep_file_growth lines _ a hfold x hx
      · intro ⟨hnd, hsub⟩
        have hinv := foldlM_invariant patientStep
          (fun y => (∀ x, x ∈ y.2.1 ↔ x ∈ y.1.cases.map (fun c => c.patientID)) ∧
            (y.1.cases.map (fun c => c.patientID)).Nodup ∧
            (∀ x ∈ y.1.cases.map (fun c => c.patientID), x ∈ fileIds (y.1.logFile.getD [])))
          patientStep_presP lines _ a hfold ⟨fun x => Iff.rfl, hnd, hsub⟩
        constructor
        · show ((sortCases a.1.cases).map (fun c => c.patientID)).Nodup
          exact (((sortCases_perm a.1.cases).map _).nodup_iff).mpr hinv.2.1
        · intro x hx
          show x ∈ fileIds (a.1.logFile.getD [])
          have hx2 : x ∈ a.1.cases.map (fun c => c.patientID) :=
            (((sortCases_perm a.1.cases).map _).mem_iff).mp hx
          exact hinv.2.2 x hx2

theorem applyOp_imp_eq (st : EDState) (pf : Option FileLines) :
    applyOp st (Op.imp pf) =
      (match loadPatientsFromFile st pf with
       | .error e => .error e
       | .ok r => .ok (r.1, none)) := rfl

theorem applyOp_facts (st : EDState) (op : Op) (st1 : EDState) (oid : Option Int)
    (h : applyOp st op = .ok (st1, oid)) :
    (∀ x ∈ fileIds (st.logFile.getD []), x ∈ fileIds (st1.logFile.getD [])) ∧
    (∀ i, oid = some i →
      i ∉ fileIds (st.logFile.getD []) ∧ i ∈ fileIds (st1.logFile.getD [])) ∧
    (((st.cases.map (fun c => c.patientID)).Nodup ∧
        (∀ x ∈ st.cases.map (fun c => c.patientID), x ∈ fileIds (st.logFile.getD []))) →
      ((st1.cases.map (fun c => c.patientID)).Nodup ∧
        (∀ x ∈ st1.cases.map (fun c => c.patientID), x ∈ fileIds (st1.logFile.getD [])))) := by
  rcases op with ⟨nameIn, ctIn, toks⟩ | _ | ⟨toks, nameIn⟩ | pf
  · unfold applyOp at h
    cases h
    rcases logCase_session st nameIn ctIn toks with ⟨hst, hnotlog⟩ | ⟨c, hlog, hcid, hst⟩
    · rw [hst]
      have hoid : (match (logEmergencyCase st nameIn ctIn toks).2 with
          | LogCaseResult.logged c => some c.patientID
          | _ => none) = (none : Option Int) := by
        rcases hr2 : (logEmergencyCase st nameIn ctIn toks).2 with _ | _ | _ | c
        · rfl
        · rfl
        · rfl
        · exact absurd hr2 (hnotlog c)
      rw [hoid]
      exact ⟨fun x hx => hx, fun i hi => Option.noConfusion hi, id⟩
    · have hoid : (match (logEmergencyCase st nameIn ctIn toks).2 with
          | LogCaseResult.logged c => some c.patientID
          | _ => none) = some c.patientID := by
        rw [hlog]
      rw [hoid, hst]
      have hgrow : ∀ x ∈ fileIds (st.logFile.getD []),
          x ∈ fileIds ((appendCaseLine st.logFile c).getD []) := by
        intro x hx
        rw [fileIds_appendCase]
        exact List.mem_append.mpr (Or.inl hx)
      have hfresh : c.patientID ∉ fileIds (st.logFile.getD []) := by
        rw [hcid]
        exact (generateNextID_spec st.logFile).2.1
      refine ⟨hgrow, ?_, ?_⟩
      · intro i hi
        cases hi
        refine ⟨hfresh, ?_⟩
        rw [fileIds_appendCase]
        simp
      · intro ⟨hnd, hsub⟩
        have hperm : ((insertCase c st.cases).map (fun x => x.patientID)).Perm
            (c.patientID :: st.cases.map (fun x => x.patientID)) := by
          have hp := (insertCase_perm c st.cases).map (fun x => x.patientID)
          simpa using hp
        have hpid_not : c.patientID ∉ st.cases.map (fun x => x.patientID) :=
          fun hx => hfresh (hsub _ hx)
        constructor
        · exact hperm.nodup_iff.mpr (List.nodup_cons.mpr ⟨hpid_not, hnd⟩)
        · intro x hx
          rcases List.mem_cons.mp (hperm.mem_iff.mp hx) with hx2 | hx2
          · subst hx2
            rw [fileIds_appendCase]
            simp
          · exact hgrow x (hsub x hx2)
  · unfold applyOp at h
    cases h
    obtain ⟨hc, hf⟩ := process_tail st
    rw [hc, hf]
    refine ⟨fun x hx => hx, fun i hi => Option.noConfusion hi, ?_⟩
    intro ⟨hnd, hsub⟩
    have hsl : List.Sublist ((st.cases.tail).map (fun c => c.patientID))
        (st.cases.map (fun c => c.patientID)) := (List.tail_sublist st.cases).map _
    exact ⟨hnd.sublist hsl, fun x hx => hsub x (hsl.subset hx)⟩
  · unfold applyOp at h
    cases h
    obtain ⟨hf, hperm⟩ := updatePriority_state st toks nameIn
    rw [hf]
    refine ⟨fun x hx => hx, fun i hi => Option.noConfusion hi, ?_⟩
    intro ⟨hnd, hsub⟩
    exact ⟨hperm.nodup_iff.mpr hnd, fun x hx => hsub x (hperm.mem_iff.mp hx)⟩
  · rw [applyOp_imp_eq] at h
    rcases hlp : loadPatientsFromFile st pf with e | r <;> rw [hlp] at h
    · exact Except.noConfusion h
    · cases h
      obtain ⟨hgrow, hpres⟩ := loadPatients_session st pf r.1 r.2 (by rw [hlp])
      exact ⟨hgrow, fun i hi => Option.noConfusion hi, hpres⟩

theorem runOps_cons_eq (st : EDState) (op : Op) (ops : List Op) :
    runOps st (op :: ops) =
      (match applyOp st op with
       | .error e => .error e
       | .ok (st1, oid) =>
         match runOps st1 ops with
         | .error e => .error e
         | .ok (st2, ids) => .ok (st2, oid.toList ++ ids)) := rfl

theorem runOps_facts (ops : List Op) :
    ∀ (st st' : EDState) (ids : List Int),
      runOps st ops = .ok (st', ids) →
      (∀ x ∈ fileIds (st.logFile.getD []), x ∈ fileIds (st'.logFile.getD [])) ∧
      ids.Nodup ∧
      (∀ x ∈ ids, x ∉ fileIds (st.logFile.getD []) ∧ x ∈ fileIds (st'.logFile.getD [])) ∧
      (((st.cases.map (fun c => c.patientID)).Nodup ∧
          (∀ x ∈ st.cases.map (fun c => c.patientID), x ∈ fileIds (st.logFile.getD []))) →
        ((st'.cases.map (fun c => c.patientID)).Nodup ∧
          (∀ x ∈ st'.cases.map (fun c => c.patientID), x ∈ fileIds (st'.logFile.getD [])))) := by
  induction ops with
  | nil =>
      intro st st' ids h
      cases h
      exact ⟨fun x hx => hx, List.nodup_nil, by simp, id⟩
  | cons op ops ih =>
      intro st st' ids h
      rw [runOps_cons_eq] at h
      rcases hap : applyOp st op with e | ⟨st1, oid⟩ <;> rw [hap] at h
      · exact Except.noConfusion h
      · have h2 : (match runOps st1 ops with
            | Except.error e => Except.error e
            | Except.ok (st2, ids2) =>
              Except.ok (st2, oid.toList ++ ids2)) = Except.ok (st', ids) := h
        rcases hro : runOps st1 ops with e | ⟨st2, ids2⟩ <;> rw [hro] at h2
        · exact Except.noConfusion h2
        · have h3 : st2 = st' ∧ oid.toList ++ ids2 = ids := by
            simp only [Except.ok.injEq, Prod.mk.injEq] at h2
            exact h2
          obtain ⟨h4, h5⟩ := h3
          subst h4
          subst h5
          obtain ⟨hg1, hoid, hpres1⟩ := applyOp_facts st op st1 oid hap
          obtain ⟨hg2, hnd2, hmem2, hpres2⟩ := ih st1 st2 ids2 hro
          refine ⟨fun x hx => hg2 x (hg1 x hx), ?_, ?_, fun hP => hpres2 (hpres1 hP)⟩
          · rcases oid with _ | i
            · simpa using hnd2
            · simp only [Option.toList_some, List.singleton_append]
              rw [List.nodup_cons]
              refine ⟨?_, hnd2⟩
              intro hin
              exact (hmem2 i hin).1 (hoid i rfl).2
          · intro x hx
            rcases List.mem_append.mp hx with hx | hx
            · rcases oid with _ | i
              · simp at hx
              · simp only [Option.toList_some, List.mem_singleton] at hx
                subst hx
                exact ⟨(hoid x rfl).1, hg2 x (hoid x rfl).2⟩
            · refine ⟨?_, (hmem2 x hx).2⟩
              intro hin
              exact (hmem2 x hx).1 (hg1 x hin)

/-- C6 (amended): all ids assigned by `logEmergencyCase` across a session
are pairwise distinct, even when `processCriticalCase` removes cases
between loggings — the case log is append-only, so processed ids stay
reserved; and provided the session's starting store has pairwise-distinct
ids all recorded in the case log, every state reached by session
operations keeps store ids pairwise distinct.  (Unconditionally the
invariant fails: a startup log whose lines repeat an id loads a store
with duplicate ids — see the counterexample.) -/
theorem claim_C6_distinct_ids :
    (∀ (ops : List Op) (st st' : EDState) (ids : List Int),
      runOps st ops = .ok (st', ids) → ids.Nodup) ∧
    (∀ (ops : List Op) (st st' : EDState) (ids : List Int),
      runOps st ops = .ok (st', ids) →
      (storeIds st).Nodup → (∀ x ∈ storeIds st, x ∈ fileIdsOf st) →
      (storeIds st').Nodup) := by
  constructor
  · intro ops st st' ids h
    exact (runOps_facts ops st st' ids h).2.1
  · intro ops st st' ids h hnd hsub
    exact ((runOps_facts ops st st' ids h).2.2.2 ⟨hnd, hsub⟩).1

/-- C6 witness: logging, processing, then logging again in an initially
empty department assigns ids 1 and 2 — distinct even though the first
case was removed in between — and the empty starting store trivially
satisfies the invariant. -/
theorem claim_C6_distinct_ids_witness :
    ([1, 2] : List Int).Nodup ∧ (storeIds ⟨[], none⟩).Nodup :=
  ⟨claim_C6_distinct_ids.1
      [Op.log "Ann".toList [] [InTok.num 1], Op.process, Op.log "Bob".toList [] [InTok.num 1]]
      ⟨[], none⟩
      ⟨[⟨2, "Bob".toList, "Heart Attack".toList, 1⟩],
        some ["1,Ann,Heart Attack,1".toList, "2,Bob,Heart Attack,1".toList]⟩
      [1, 2] (by decide),
   claim_C6_distinct_ids.2 [] ⟨[], none⟩ ⟨[], none⟩ [] (by decide) (by decide) (by decide)⟩

/-- C6 counterexample: a case log whose two lines both carry id 5 loads
(at startup, hence reachable) a store whose ids are [5, 5] — invariant I2
does not hold for every reachable store state. -/
theorem claim_C6_counterexample :
    Reachable ⟨[⟨5, "A".toList, "x".toList, 1⟩, ⟨5, "B".toList, "y".toList, 2⟩],
      some ["5,A,x,1".toList, "5,B,y,2".toList]⟩ ∧
    ¬(storeIds ⟨[⟨5, "A".toList, "x".toList, 1⟩, ⟨5, "B".toList, "y".toList, 2⟩],
      some ["5,A,x,1".toList, "5,B,y,2".toList]⟩).Nodup :=
  ⟨Reachable.init (some ["5,A,x,1".toList, "5,B,y,2".toList]) none _ (by decide), by decide⟩
